import Mathlib

/-!
Shallow embedding of the `myentropy` day-timeline engine
(`calendar_loader.py`, `antientropy1.py`, `focus.py`, `label_classifier.py`)
and proofs of the specification claims about it.

Conventions:
* a schedule row `(start, end, activity)` is a triple `ℕ × ℕ × String`;
* minute offsets live in `[0, 1440]`;
* Python exceptions are modelled by `Option`/`Except`;
* Python floats are modelled by `ℚ`/`ℝ` (the claims under scrutiny do not
  depend on rounding behaviour).
-/

/-- A schedule row `(start_minute, end_minute, activity_label)`. -/
abbrev Row := ℕ × ℕ × String

/-! ## Interval normalizer (`calendar_loader.py`) -/

/-- Loop body of `merge_overlapping_rows`: walk the rows keeping a
`current_end` cursor; keep a row whole when it starts at or after the
cursor, keep its trailing part `[cursor, end)` when it still reaches past
the cursor, and drop it otherwise. -/
def mergeAux : List Row → ℕ → List Row
  | [], _ => []
  | (s, e, a) :: rest, current_end =>
    if s ≥ current_end then (s, e, a) :: mergeAux rest e
    else if e > current_end then (current_end, e, a) :: mergeAux rest e
    else mergeAux rest current_end

/-- `merge_overlapping_rows` from `calendar_loader.py`: merge overlapping
events, keeping the first one for conflicts. -/
def merge_overlapping_rows (rows : List Row) : List Row :=
  if rows = [] then [] else mergeAux rows 0

/-- Loop body of `fill_gaps`: walk the merged rows with a `current` cursor,
emitting a sentinel-labelled gap row before any row that starts past the
cursor, clamping starts that lie before the cursor, and finishing with a
sentinel row up to minute 1440 when needed. -/
def fillAux : List Row → ℕ → String → List Row
  | [], current, gap_label =>
    if current < 1440 then [(current, 1440, gap_label)] else []
  | (s, e, a) :: rest, current, gap_label =>
    let gap : List Row := if s > current then [(current, s, gap_label)] else []
    let s2 := if s < current then current else s
    if s2 < e then gap ++ (s2, e, a) :: fillAux rest e gap_label
    else gap ++ fillAux rest current gap_label

/-- `fill_gaps` from `calendar_loader.py`: merge the rows, then fill the
gaps with `gap_label` so that the result covers `[0, 1440)`. -/
def fill_gaps (rows : List Row) (gap_label : String) : List Row :=
  fillAux (merge_overlapping_rows rows) 0 gap_label

/-- `chainFrom c rows` says the rows form a contiguous chain of non-empty
intervals starting exactly at `c` and ending exactly at 1440: this packages
sortedness, non-overlap, gap-freeness and union `= [c, 1440)` at once. -/
def chainFrom : ℕ → List Row → Prop
  | c, [] => c = 1440
  | c, (s, e, _) :: rest => s = c ∧ s < e ∧ chainFrom e rest

/-- `gappedChainFrom c rows` says the rows are non-overlapping and ordered
with all endpoints in `[c, 1440]`, but possibly with gaps. -/
def gappedChainFrom : ℕ → List Row → Prop
  | _, [] => True
  | c, (s, e, _) :: rest => c ≤ s ∧ s < e ∧ e ≤ 1440 ∧ gappedChainFrom e rest

/-- The merge loop turns any list of valid rows into a gapped chain. -/
theorem mergeAux_gappedChain (rows : List Row)
    (hv : ∀ r ∈ rows, r.1 < r.2.1 ∧ r.2.1 ≤ 1440) :
    ∀ c, gappedChainFrom c (mergeAux rows c) := by
  induction rows with
  | nil => intro c; simp [mergeAux, gappedChainFrom]
  | cons head rest ih =>
    obtain ⟨s, e, a⟩ := head
    intro c
    have hh := hv (s, e, a) (by simp)
    have hrest : ∀ r ∈ rest, r.1 < r.2.1 ∧ r.2.1 ≤ 1440 := by
      intro r hr; exact hv r (by simp [hr])
    simp only [mergeAux]
    by_cases h1 : s ≥ c
    · simp only [h1, if_true]
      exact ⟨h1, hh.1, hh.2, ih hrest e⟩
    · simp only [h1, if_false]
      by_cases h2 : e > c
      · simp only [h2, if_true]
        exact ⟨le_rfl, h2, hh.2, ih hrest e⟩
      · simp only [h2, if_false]
        exact ih hrest c

/-- Every row emitted by the merge loop keeps the end and the label of an
input row, with a start at or after that input row's start. -/
theorem mergeAux_label (rows : List Row) :
    ∀ c, ∀ r ∈ mergeAux rows c,
      ∃ s0, s0 ≤ r.1 ∧ (s0, r.2.1, r.2.2) ∈ rows := by
  induction rows with
  | nil => intro c r hr; simp [mergeAux] at hr
  | cons head rest ih =>
    obtain ⟨s, e, a⟩ := head
    intro c r hr
    simp only [mergeAux] at hr
    by_cases h1 : s ≥ c
    · simp only [h1, if_true, List.mem_cons] at hr
      rcases hr with hr | hr
      · subst hr; exact ⟨s, le_rfl, by simp⟩
      · obtain ⟨s0, hs0, hmem⟩ := ih e r hr
        exact ⟨s0, hs0, by simp [hmem]⟩
    · simp only [h1, if_false] at hr
      by_cases h2 : e > c
      · simp only [h2, if_true, List.mem_cons] at hr
        rcases hr with hr | hr
        · subst hr
          exact ⟨s, by omega, by simp⟩
        · obtain ⟨s0, hs0, hmem⟩ := ih e r hr
          exact ⟨s0, hs0, by simp [hmem]⟩
      · simp only [h2, if_false] at hr
        obtain ⟨s0, hs0, hmem⟩ := ih c r hr
        exact ⟨s0, hs0, by simp [hmem]⟩

/-- Filling a gapped chain yields a contiguous chain covering `[c, 1440)`. -/
theorem fillAux_chain (rows : List Row) (g : String) :
    ∀ c, gappedChainFrom c rows → c ≤ 1440 →
      chainFrom c (fillAux rows c g) := by
  induction rows with
  | nil =>
    intro c _ hc
    simp only [fillAux]
    by_cases h : c < 1440
    · simp [h, chainFrom]
    · have : c = 1440 := by omega
      simp [h, chainFrom, this]
  | cons head rest ih =>
    obtain ⟨s, e, a⟩ := head
    intro c hch hc
    obtain ⟨hcs, hse, he, hrest⟩ := hch
    simp only [fillAux]
    have hs2 : (if s < c then c else s) = s := by
      have : ¬ s < c := by omega
      simp [this]
    rw [hs2]
    simp only [hse, if_true]
    by_cases hgap : s > c
    · simp only [hgap, if_true]
      exact ⟨rfl, hgap, rfl, hse, ih e hrest (by omega)⟩
    · have hsc : s = c := by omega
      simp only [hgap, if_false, List.nil_append]
      exact ⟨hsc, hse, ih e hrest (by omega)⟩

/-- Every row emitted by the fill loop carries the gap label or keeps the
end and label of an input row. -/
theorem fillAux_label (rows : List Row) (g : String) :
    ∀ c, ∀ r ∈ fillAux rows c g,
      r.2.2 = g ∨ ∃ s0, s0 ≤ r.1 ∧ (s0, r.2.1, r.2.2) ∈ rows := by
  induction rows with
  | nil =>
    intro c r hr
    simp only [fillAux] at hr
    by_cases h : c < 1440
    · simp [h] at hr; subst hr; left; rfl
    · simp [h] at hr
  | cons head rest ih =>
    obtain ⟨s, e, a⟩ := head
    intro c r hr
    simp only [fillAux] at hr
    have hgapmem : ∀ x ∈ (if s > c then [(c, s, g)] else ([] : List Row)),
        x.2.2 = g := by
      intro x hx
      by_cases h : s > c
      · simp [h] at hx; subst hx; rfl
      · simp [h] at hx
    by_cases hlt : (if s < c then c else s) < e
    · simp only [hlt, if_true, List.mem_append, List.mem_cons] at hr
      rcases hr with hr | hr | hr
      · exact Or.inl (hgapmem r hr)
      · subst hr; right
        refine ⟨s, ?_, by simp⟩
        by_cases h : s < c
        · simp only [h, if_true]; omega
        · simp [h]
      · rcases ih e r hr with h | ⟨s0, hs0, hmem⟩
        · exact Or.inl h
        · exact Or.inr ⟨s0, hs0, by simp [hmem]⟩
    · simp only [hlt, if_false, List.mem_append] at hr
      rcases hr with hr | hr
      · exact Or.inl (hgapmem r hr)
      · rcases ih c r hr with h | ⟨s0, hs0, hmem⟩
        · exact Or.inl h
        · exact Or.inr ⟨s0, hs0, by simp [hmem]⟩

/-- C1, main part, packaged over `fill_gaps` itself. -/
theorem fill_gaps_chain (rows : List Row) (g : String)
    (hv : ∀ r ∈ rows, r.1 < r.2.1 ∧ r.2.1 ≤ 1440) :
    chainFrom 0 (fill_gaps rows g) := by
  unfold fill_gaps merge_overlapping_rows
  by_cases h : rows = []
  · subst h
    simpa using fillAux_chain [] g 0 trivial (by omega)
  · simp only [h, if_false]
    exact fillAux_chain (mergeAux rows 0) g 0
      (mergeAux_gappedChain rows hv 0) (by omega)

/-- A contiguous chain is left unchanged by the merge loop. -/
theorem mergeAux_of_chain (rows : List Row) :
    ∀ c, chainFrom c rows → mergeAux rows c = rows := by
  induction rows with
  | nil => intro c _; rfl
  | cons head rest ih =>
    obtain ⟨s, e, a⟩ := head
    intro c hch
    obtain ⟨hs, hse, hrest⟩ := hch
    subst hs
    simp only [mergeAux, ge_iff_le, le_refl, if_true]
    rw [ih e hrest]

/-- A contiguous chain is left unchanged by the fill loop. -/
theorem fillAux_of_chain (rows : List Row) (g : String) :
    ∀ c, chainFrom c rows → fillAux rows c g = rows := by
  induction rows with
  | nil =>
    intro c hch
    have : c = 1440 := hch
    simp [fillAux, this]
  | cons head rest ih =>
    obtain ⟨s, e, a⟩ := head
    intro c hch
    obtain ⟨hs, hse, hrest⟩ := hch
    subst hs
    simp [fillAux, hse, ih e hrest]

/-- `fill_gaps` fixes any list that is already a full-coverage chain. -/
theorem fill_gaps_of_chain (rows : List Row) (g : String)
    (hch : chainFrom 0 rows) : fill_gaps rows g = rows := by
  have hne : rows ≠ [] := by
    intro h; subst h; exact absurd hch (by simp [chainFrom])
  unfold fill_gaps merge_overlapping_rows
  rw [if_neg hne, mergeAux_of_chain rows 0 hch, fillAux_of_chain rows g 0 hch]

/-- C1: for valid sorted input rows, `fill_gaps` returns a sorted,
non-overlapping, gap-free list whose union is exactly `[0, 1440)`
(packaged as `chainFrom 0`), every synthetic row carries the sentinel
label, and the empty input yields the single sentinel row. -/
theorem fill_gaps_complete (rows : List Row) (g : String)
    (_hsort : List.Pairwise (fun r1 r2 : Row => r1.1 ≤ r2.1) rows)
    (hv : ∀ r ∈ rows, r.1 < r.2.1 ∧ r.2.1 ≤ 1440) :
    chainFrom 0 (fill_gaps rows g) ∧
      (∀ r ∈ fill_gaps rows g,
        r.2.2 = g ∨ ∃ s0, s0 ≤ r.1 ∧ (s0, r.2.1, r.2.2) ∈ rows) ∧
      fill_gaps ([] : List Row) g = [(0, 1440, g)] := by
  refine ⟨fill_gaps_chain rows g hv, ?_, by rfl⟩
  intro r hr
  unfold fill_gaps at hr
  rcases fillAux_label (merge_overlapping_rows rows) g 0 r hr with h | ⟨s0, hs0, hmem⟩
  · exact Or.inl h
  · right
    unfold merge_overlapping_rows at hmem
    by_cases hne : rows = []
    · simp [hne] at hmem
    · rw [if_neg hne] at hmem
      obtain ⟨s1, hs1, hmem1⟩ := mergeAux_label rows 0 _ hmem
      exact ⟨s1, by simpa using le_trans hs1 hs0, hmem1⟩

/-- Witness for C1 at a concrete input. -/
theorem fill_gaps_complete_witness :
    chainFrom 0 (fill_gaps [(10, 20, "a")] "unscheduled") ∧
      (∀ r ∈ fill_gaps [(10, 20, "a")] "unscheduled",
        r.2.2 = "unscheduled" ∨
          ∃ s0, s0 ≤ r.1 ∧ (s0, r.2.1, r.2.2) ∈ [((10 : ℕ), (20 : ℕ), "a")]) ∧
      fill_gaps ([] : List Row) "unscheduled" = [(0, 1440, "unscheduled")] :=
  fill_gaps_complete [(10, 20, "a")] "unscheduled" (by simp) (by decide)

/-- C9: on any already-complete non-overlapping sorted timeline,
`fill_gaps` is idempotent. -/
theorem fill_gaps_idem (x : List Row) (g : String) (hch : chainFrom 0 x) :
    fill_gaps (fill_gaps x g) g = fill_gaps x g := by
  rw [fill_gaps_of_chain x g hch]
  exact fill_gaps_of_chain x g hch

/-- Witness for C9 at a concrete input. -/
theorem fill_gaps_idem_witness :
    fill_gaps (fill_gaps [(0, 1440, "a")] "u") "u" =
      fill_gaps [(0, 1440, "a")] "u" :=
  fill_gaps_idem [(0, 1440, "a")] "u" ⟨rfl, by omega, rfl⟩

/-- C6: the merge loop's three cases — keep whole when the start is at or
after the cursor, keep the trailing `[cursor, end)` with the row's own
label when the row still reaches past the cursor, drop otherwise — and the
concrete first-interval-wins example from the spec. -/
theorem merge_overlapping_rows_cases :
    (∀ (s e c : ℕ) (a : String) (rest : List Row), s ≥ c →
      mergeAux ((s, e, a) :: rest) c = (s, e, a) :: mergeAux rest e) ∧
    (∀ (s e c : ℕ) (a : String) (rest : List Row), s < c → e > c →
      mergeAux ((s, e, a) :: rest) c = (c, e, a) :: mergeAux rest e) ∧
    (∀ (s e c : ℕ) (a : String) (rest : List Row), s < c → e ≤ c →
      mergeAux ((s, e, a) :: rest) c = mergeAux rest c) ∧
    (∀ (s e : ℕ) (a : String) (rest : List Row),
      merge_overlapping_rows ((s, e, a) :: rest) = (s, e, a) :: mergeAux rest e) ∧
    merge_overlapping_rows [(0, 600, "a"), (300, 900, "b")] =
      [(0, 600, "a"), (600, 900, "b")] := by
  refine ⟨?_, ?_, ?_, ?_, by decide⟩
  · intro s e c a rest h
    simp [mergeAux, h]
  · intro s e c a rest h1 h2
    simp only [mergeAux]
    rw [if_neg (by omega), if_pos h2]
  · intro s e c a rest h1 h2
    simp only [mergeAux]
    rw [if_neg (by omega), if_neg (by omega)]
  · intro s e a rest
    simp [merge_overlapping_rows, mergeAux]

/-- Witness for C6 at a concrete input. -/
theorem merge_overlapping_rows_cases_witness :
    mergeAux [((5 : ℕ), (9 : ℕ), "x")] 3 = [(5, 9, "x")] :=
  merge_overlapping_rows_cases.1 5 9 3 "x" [] (by omega)

/-! ## Decimal string representations

`antientropy1.py` builds block names `f"{label}_{block_index}"`; to prove
the names pairwise distinct we need that the decimal representation of the
counter can be recovered from the name.  -/

/-- Decimal digit characters of `n`, most significant first. -/
def charDigits (n : ℕ) : List Char :=
  if n = 0 then ['0'] else ((Nat.digits 10 n).map Nat.digitChar).reverse

theorem digitChar_isDigit : ∀ d < 10, (Nat.digitChar d).isDigit = true := by
  decide

theorem digitChar_inj10 :
    ∀ a < 10, ∀ b < 10, Nat.digitChar a = Nat.digitChar b → a = b := by
  decide

theorem toDigitsCore_eq_charDigits :
    ∀ (fuel n : ℕ) (acc : List Char), 0 < fuel → n < 10 ^ fuel →
      Nat.toDigitsCore 10 fuel n acc = charDigits n ++ acc := by
  intro fuel
  induction fuel with
  | zero => intro n acc h; omega
  | succ f ih =>
    intro n acc _ hlt
    simp only [Nat.toDigitsCore]
    by_cases hdiv : n / 10 = 0
    · simp only [hdiv, if_true]
      have hn10 : n < 10 := by omega
      by_cases hn0 : n = 0
      · subst hn0; simp [charDigits]; decide
      · have hdig : Nat.digits 10 n = [n % 10] := by
          rw [Nat.digits_def' (by norm_num : 1 < 10) (by omega : 0 < n), hdiv]
          simp
        simp [charDigits, hn0, hdig]
    · simp only [hdiv, if_false]
      have hf : 0 < f := by
        by_contra h
        have : f = 0 := by omega
        subst this
        simp at hlt
        omega
      have hlt2 : n / 10 < 10 ^ f := by
        rw [Nat.div_lt_iff_lt_mul (by norm_num : 0 < 10)]
        calc n < 10 ^ (f + 1) := hlt
          _ = 10 ^ f * 10 := by ring
      rw [ih (n / 10) (Nat.digitChar (n % 10) :: acc) hf hlt2]
      have hn0 : n ≠ 0 := by
        intro h; subst h; simp at hdiv
      have hstep : charDigits n = charDigits (n / 10) ++ [Nat.digitChar (n % 10)] := by
        have hdig : Nat.digits 10 n = n % 10 :: Nat.digits 10 (n / 10) :=
          Nat.digits_def' (by norm_num : 1 < 10) (by omega : 0 < n)
        simp [charDigits, hn0, hdiv, hdig]
      rw [hstep, List.append_assoc]
      rfl

/-- `Nat.repr` written through `charDigits`. -/
theorem repr_eq_charDigits (n : ℕ) : Nat.repr n = (charDigits n).asString := by
  have h : Nat.toDigits 10 n = charDigits n := by
    have := toDigitsCore_eq_charDigits (n + 1) n [] (by omega)
      (lt_of_lt_of_le (Nat.lt_two_pow n)
        (le_trans (Nat.pow_le_pow_left (by norm_num) n)
          (Nat.pow_le_pow_right (by norm_num) (by omega))))
    simpa [Nat.toDigits] using this
  rw [Nat.repr, h]

theorem charDigits_all_digit (n : ℕ) : ∀ c ∈ charDigits n, c.isDigit = true := by
  intro c hc
  unfold charDigits at hc
  by_cases h : n = 0
  · simp [h] at hc; subst hc; decide
  · simp only [h, if_false, List.mem_reverse, List.mem_map] at hc
    obtain ⟨d, hd, hdc⟩ := hc
    have hlt : d < 10 := Nat.digits_lt_base (by norm_num) hd
    subst hdc
    exact digitChar_isDigit d hlt

theorem map_digitChar_inj :
    ∀ (l1 l2 : List ℕ), (∀ x ∈ l1, x < 10) → (∀ x ∈ l2, x < 10) →
      l1.map Nat.digitChar = l2.map Nat.digitChar → l1 = l2 := by
  intro l1
  induction l1 with
  | nil => intro l2 _ _ h; cases l2 <;> simp_all
  | cons a t ih =>
    intro l2 h1 h2 h
    cases l2 with
    | nil => simp at h
    | cons b t2 =>
      simp only [List.map_cons, List.cons.injEq] at h
      have ha : a < 10 := h1 a (by simp)
      have hb : b < 10 := h2 b (by simp)
      have hab : a = b := digitChar_inj10 a ha b hb h.1
      refine List.cons_eq_cons.mpr ⟨hab, ih t2 ?_ ?_ h.2⟩
      · intro x hx; exact h1 x (by simp [hx])
      · intro x hx; exact h2 x (by simp [hx])

theorem charDigits_inj (m n : ℕ) (h : charDigits m = charDigits n) : m = n := by
  unfold charDigits at h
  by_cases hm : m = 0 <;> by_cases hn : n = 0
  · omega
  · exfalso
    simp only [hm, if_true, hn, if_false] at h
    have h2 : (Nat.digits 10 n).map Nat.digitChar = ['0'] := by
      have := congrArg List.reverse h
      simpa using this.symm
    obtain ⟨d, t, hdt⟩ : ∃ d t, Nat.digits 10 n = d :: t := by
      cases hdig : Nat.digits 10 n with
      | nil => rw [hdig] at h2; simp at h2
      | cons d t => exact ⟨d, t, rfl⟩
    rw [hdt] at h2
    simp only [List.map_cons, List.cons.injEq, List.map_eq_nil_iff] at h2
    have hlt : d < 10 := Nat.digits_lt_base (by norm_num) (by rw [hdt]; simp)
    have hd0 : d = 0 :=
      digitChar_inj10 d hlt 0 (by norm_num) (by rw [h2.1]; decide)
    have : n = Nat.ofDigits 10 (Nat.digits 10 n) := (Nat.ofDigits_digits 10 n).symm
    rw [hdt, hd0, h2.2] at this
    simp [Nat.ofDigits_cons, Nat.ofDigits_nil] at this
    exact hn this
  · exfalso
    simp only [hm, if_false, hn, if_true] at h
    have h2 : (Nat.digits 10 m).map Nat.digitChar = ['0'] := by
      have := congrArg List.reverse h
      simpa using this
    obtain ⟨d, t, hdt⟩ : ∃ d t, Nat.digits 10 m = d :: t := by
      cases hdig : Nat.digits 10 m with
      | nil => rw [hdig] at h2; simp at h2
      | cons d t => exact ⟨d, t, rfl⟩
    rw [hdt] at h2
    simp only [List.map_cons, List.cons.injEq, List.map_eq_nil_iff] at h2
    have hlt : d < 10 := Nat.digits_lt_base (by norm_num) (by rw [hdt]; simp)
    have hd0 : d = 0 :=
      digitChar_inj10 d hlt 0 (by norm_num) (by rw [h2.1]; decide)
    have : m = Nat.ofDigits 10 (Nat.digits 10 m) := (Nat.ofDigits_digits 10 m).symm
    rw [hdt, hd0, h2.2] at this
    simp [Nat.ofDigits_cons, Nat.ofDigits_nil] at this
    exact hm this
  · simp only [hm, if_false, hn, if_false] at h
    have h2 := congrArg List.reverse h
    simp only [List.reverse_reverse] at h2
    have h3 : Nat.digits 10 m = Nat.digits 10 n :=
      map_digitChar_inj _ _ (fun x hx => Nat.digits_lt_base (by norm_num) hx)
        (fun x hx => Nat.digits_lt_base (by norm_num) hx) h2
    have := congrArg (Nat.ofDigits 10) h3
    rwa [Nat.ofDigits_digits, Nat.ofDigits_digits] at this

theorem repr_inj_nat (m n : ℕ) (h : Nat.repr m = Nat.repr n) : m = n := by
  rw [repr_eq_charDigits, repr_eq_charDigits] at h
  exact charDigits_inj m n (congrArg String.data h)

/-- Walking two char lists front to back: if the prefix of each is made of
digits and `c` is not a digit, the first `c` splits them identically. -/
theorem front_digits_eq :
    ∀ (w1 w2 t1 t2 : List Char) (c : Char),
      (∀ x ∈ w1, x.isDigit = true) → (∀ x ∈ w2, x.isDigit = true) →
      c.isDigit = false → w1 ++ c :: t1 = w2 ++ c :: t2 → w1 = w2 := by
  intro w1
  induction w1 with
  | nil =>
    intro w2 t1 t2 c _ h2 hc h
    cases w2 with
    | nil => rfl
    | cons b tb =>
      exfalso
      simp only [List.nil_append, List.cons_append, List.cons.injEq] at h
      have := h2 b (by simp)
      rw [← h.1] at this
      rw [hc] at this
      exact Bool.false_ne_true this
  | cons a ta ih =>
    intro w2 t1 t2 c h1 h2 hc h
    cases w2 with
    | nil =>
      exfalso
      simp only [List.cons_append, List.nil_append, List.cons.injEq] at h
      have := h1 a (by simp)
      rw [h.1, hc] at this
      exact Bool.false_ne_true this
    | cons b tb =>
      simp only [List.cons_append, List.cons.injEq] at h
      refine List.cons_eq_cons.mpr ⟨h.1, ih tb t1 t2 c ?_ ?_ hc h.2⟩
      · intro x hx; exact h1 x (by simp [hx])
      · intro x hx; exact h2 x (by simp [hx])

/-- Suffixes after a non-digit separator agree when both are all digits. -/
theorem sep_suffix_eq (u1 u2 v1 v2 : List Char) (c : Char)
    (h1 : ∀ x ∈ v1, x.isDigit = true) (h2 : ∀ x ∈ v2, x.isDigit = true)
    (hc : c.isDigit = false)
    (h : u1 ++ c :: v1 = u2 ++ c :: v2) : v1 = v2 := by
  have hrev := congrArg List.reverse h
  simp only [List.reverse_append, List.reverse_cons, List.append_assoc,
    List.singleton_append] at hrev
  have := front_digits_eq v1.reverse v2.reverse u1.reverse u2.reverse c
    (fun x hx => h1 x (List.mem_reverse.mp hx))
    (fun x hx => h2 x (List.mem_reverse.mp hx)) hc hrev
  have h4 := congrArg List.reverse this
  simpa using h4

/-- The numeric suffix of a block name determines the counter: appending
`"_" ++ Nat.repr i` is injective in `i` whatever the leading labels are. -/
theorem name_num_inj (a b : String) (i j : ℕ)
    (h : a ++ "_" ++ Nat.repr i = b ++ "_" ++ Nat.repr j) : i = j := by
  have hd := congrArg String.data h
  simp only [String.data_append] at hd
  rw [repr_eq_charDigits, repr_eq_charDigits] at hd
  have hda : ∀ l : List Char, (l.asString).data = l := fun _ => rfl
  rw [hda, hda] at hd
  simp only [List.append_assoc, List.singleton_append] at hd
  have := sep_suffix_eq a.data b.data (charDigits i) (charDigits j) '_'
    (charDigits_all_digit i) (charDigits_all_digit j) (by decide) hd
  exact charDigits_inj i j this

/-! ## Block segmenter (`antientropy1.py`, `build_block_labels`) -/

/-- `block_durations[name] = block_durations.get(name, 0) + 1` on an
insertion-ordered dictionary: update in place, or append a fresh key. -/
def dictIncr : List (String × ℕ) → String → List (String × ℕ)
  | [], key => [(key, 1)]
  | (k, v) :: rest, key =>
    if k = key then (k, v + 1) :: rest else (k, v) :: dictIncr rest key

/-- Loop state of `build_block_labels`. -/
structure BuildState where
  block_labels : List String
  block_durations : List (String × ℕ)
  block_order : List String
  block_index : ℤ
  prev : Option String
  block_name : String

/-- One iteration of the `build_block_labels` loop: on a label change,
bump the global counter and open a block named `f"{label}_{block_index}"`;
either way append the current block name and bump its duration. -/
def buildStep (st : BuildState) (label : String) : BuildState :=
  if some label ≠ st.prev then
    let i := st.block_index + 1
    let name := label ++ "_" ++ toString i
    { block_labels := st.block_labels ++ [name]
      block_durations := dictIncr st.block_durations name
      block_order := st.block_order ++ [name]
      block_index := i
      prev := some label
      block_name := name }
  else
    { st with
      block_labels := st.block_labels ++ [st.block_name]
      block_durations := dictIncr st.block_durations st.block_name
      prev := some label }

/-- Initial loop state (`block_index = -1`, `prev = None`; `block_name`
is unbound in the Python source before the first iteration, seeded here
with `""`, which is never read before the first assignment). -/
def initState : BuildState := ⟨[], [], [], -1, none, ""⟩

/-- `build_block_labels` from `antientropy1.py`. -/
def build_block_labels (minutes : List String) :
    List String × List (String × ℕ) × List String :=
  let st := minutes.foldl buildStep initState
  (st.block_labels, st.block_durations, st.block_order)

theorem dictIncr_map_fst_mem (l : List (String × ℕ)) (key : String)
    (h : key ∈ l.map Prod.fst) :
    (dictIncr l key).map Prod.fst = l.map Prod.fst := by
  induction l with
  | nil => simp at h
  | cons kv rest ih =>
    obtain ⟨k, v⟩ := kv
    simp only [dictIncr]
    by_cases hk : k = key
    · simp [hk]
    · simp only [hk, if_false, List.map_cons]
      simp only [List.map_cons, List.mem_cons] at h
      rcases h with h | h
      · exact absurd h.symm hk
      · rw [ih h]

theorem dictIncr_map_fst_notmem (l : List (String × ℕ)) (key : String)
    (h : key ∉ l.map Prod.fst) :
    (dictIncr l key).map Prod.fst = l.map Prod.fst ++ [key] := by
  induction l with
  | nil => simp [dictIncr]
  | cons kv rest ih =>
    obtain ⟨k, v⟩ := kv
    simp only [List.map_cons, List.mem_cons, not_or] at h
    simp only [dictIncr]
    rw [if_neg (fun hk => h.1 hk.symm)]
    simp only [List.map_cons, List.cons_append, List.cons.injEq, true_and]
    exact ih h.2

theorem dictIncr_sum (l : List (String × ℕ)) (key : String) :
    ((dictIncr l key).map Prod.snd).sum = (l.map Prod.snd).sum + 1 := by
  induction l with
  | nil => simp [dictIncr]
  | cons kv rest ih =>
    obtain ⟨k, v⟩ := kv
    simp only [dictIncr]
    by_cases hk : k = key
    · simp [hk]; omega
    · simp only [hk, if_false, List.map_cons, List.sum_cons, ih]
      omega

theorem dictIncr_pos (l : List (String × ℕ)) (key : String)
    (h : ∀ kv ∈ l, 0 < kv.2) : ∀ kv ∈ dictIncr l key, 0 < kv.2 := by
  induction l with
  | nil => intro kv hkv; simp [dictIncr] at hkv; subst hkv; norm_num
  | cons hd rest ih =>
    obtain ⟨k, v⟩ := hd
    intro kv hkv
    simp only [dictIncr] at hkv
    by_cases hk : k = key
    · simp only [hk, if_true, List.mem_cons] at hkv
      rcases hkv with hkv | hkv
      · subst hkv; norm_num
      · exact h kv (by simp [hkv])
    · simp only [hk, if_false, List.mem_cons] at hkv
      rcases hkv with hkv | hkv
      · subst hkv; exact h (k, v) (by simp)
      · exact ih (fun x hx => h x (by simp [hx])) kv hkv

/-- Invariant of the `build_block_labels` loop after consuming
`processed`. -/
def BuildInv (processed : List String) (st : BuildState) : Prop :=
  st.block_index = (st.block_order.length : ℤ) - 1 ∧
  (∀ nm ∈ st.block_order,
    ∃ l k, nm = l ++ "_" ++ Nat.repr k ∧ k < st.block_order.length) ∧
  st.block_order.Nodup ∧
  st.block_durations.map Prod.fst = st.block_order ∧
  (st.block_durations.map Prod.snd).sum = processed.length ∧
  st.block_labels.length = processed.length ∧
  st.block_order.Sublist st.block_labels ∧
  (∀ nm ∈ st.block_labels, nm ∈ st.block_order) ∧
  (match st.prev with
   | none => processed = [] ∧ st.block_labels = [] ∧ st.block_order = []
   | some p => processed.getLast? = some p ∧
       st.block_labels.getLast? = some st.block_name ∧
       st.block_name ∈ st.block_order) ∧
  (∀ kv ∈ st.block_durations, 0 < kv.2) ∧
  (∀ i, i + 1 < st.block_labels.length →
    (st.block_labels[i + 1]? = st.block_labels[i]? ↔
      processed[i + 1]? = processed[i]?))

theorem buildInv_init : BuildInv [] initState := by
  refine ⟨rfl, ?_, ?_, rfl, rfl, rfl, ?_, ?_, ⟨rfl, rfl, rfl⟩, ?_, ?_⟩
  · intro nm h; simp [initState] at h
  · simp [initState]
  · simp [initState]
  · intro nm h; simp [initState] at h
  · intro kv h; simp [initState] at h
  · intro i h; simp [initState] at h

theorem toString_natCast_int (k : ℕ) : toString ((k : ℕ) : ℤ) = Nat.repr k :=
  rfl

theorem getLast?_ne_nil {α} (l : List α) (x : α) (h : l.getLast? = some x) :
    l ≠ [] := by
  intro hnil; subst hnil; simp at h

theorem buildStep_inv (processed : List String) (st : BuildState) (m : String)
    (inv : BuildInv processed st) :
    BuildInv (processed ++ [m]) (buildStep st m) := by
  obtain ⟨h1, h2, h3, h4, h5, h6, h7, h8, h9, h10, h11⟩ := inv
  by_cases hcond : some m ≠ st.prev
  · -- new block
    have hstepA : buildStep st m =
        ⟨st.block_labels ++ [m ++ "_" ++ toString (st.block_index + 1)],
         dictIncr st.block_durations (m ++ "_" ++ toString (st.block_index + 1)),
         st.block_order ++ [m ++ "_" ++ toString (st.block_index + 1)],
         st.block_index + 1, some m,
         m ++ "_" ++ toString (st.block_index + 1)⟩ := by
      simp only [buildStep, if_pos hcond]
    have hidx : st.block_index + 1 = ((st.block_order.length : ℕ) : ℤ) := by
      omega
    have hname : m ++ "_" ++ toString (st.block_index + 1) =
        m ++ "_" ++ Nat.repr st.block_order.length := by
      rw [hidx, toString_natCast_int]
    have hfresh : m ++ "_" ++ toString (st.block_index + 1) ∉ st.block_order := by
      intro hmem
      obtain ⟨l, k, heq, hk⟩ := h2 _ hmem
      rw [hname] at heq
      have := name_num_inj m l st.block_order.length k heq
      omega
    rw [hstepA]
    set name := m ++ "_" ++ toString (st.block_index + 1) with hnamedef
    refine ⟨?_, ?_, ?_, ?_, ?_, ?_, ?_, ?_, ?_, ?_, ?_⟩
    · show st.block_index + 1 = ((st.block_order ++ [name]).length : ℤ) - 1
      simp only [List.length_append, List.length_singleton]
      omega
    · show ∀ nm ∈ st.block_order ++ [name], ∃ l k,
        nm = l ++ "_" ++ Nat.repr k ∧ k < (st.block_order ++ [name]).length
      intro nm hnm
      simp only [List.mem_append, List.mem_singleton] at hnm
      simp only [List.length_append, List.length_singleton]
      rcases hnm with hnm | hnm
      · obtain ⟨l, k, heq, hk⟩ := h2 nm hnm
        exact ⟨l, k, heq, by omega⟩
      · exact ⟨m, st.block_order.length, by rw [hnm, hname], by omega⟩
    · show (st.block_order ++ [name]).Nodup
      rw [List.nodup_append]
      exact ⟨h3, List.nodup_singleton name,
        by simp only [List.disjoint_singleton]; exact hfresh⟩
    · show (dictIncr st.block_durations name).map Prod.fst =
        st.block_order ++ [name]
      rw [dictIncr_map_fst_notmem st.block_durations name (by rw [h4]; exact hfresh), h4]
    · show ((dictIncr st.block_durations name).map Prod.snd).sum =
        (processed ++ [m]).length
      rw [dictIncr_sum, h5]
      simp
    · show (st.block_labels ++ [name]).length = (processed ++ [m]).length
      simp only [List.length_append, List.length_singleton, h6]
    · exact List.Sublist.append h7 (List.Sublist.refl [name])
    · show ∀ nm ∈ st.block_labels ++ [name], nm ∈ st.block_order ++ [name]
      intro nm hnm
      simp only [List.mem_append, List.mem_singleton] at hnm ⊢
      rcases hnm with hnm | hnm
      · exact Or.inl (h8 nm hnm)
      · exact Or.inr hnm
    · show (processed ++ [m]).getLast? = some m ∧
        (st.block_labels ++ [name]).getLast? = some name ∧
        name ∈ st.block_order ++ [name]
      exact ⟨List.getLast?_concat processed, List.getLast?_concat _, by simp⟩
    · exact dictIncr_pos st.block_durations name h10
    · show ∀ i, i + 1 < (st.block_labels ++ [name]).length →
        ((st.block_labels ++ [name])[i + 1]? = (st.block_labels ++ [name])[i]? ↔
          (processed ++ [m])[i + 1]? = (processed ++ [m])[i]?)
      intro i hi
      simp only [List.length_append, List.length_singleton] at hi
      by_cases hlt : i + 1 < st.block_labels.length
      · rw [List.getElem?_append_left hlt,
          List.getElem?_append_left (by omega : i < st.block_labels.length),
          List.getElem?_append_left (by omega : i + 1 < processed.length),
          List.getElem?_append_left (by omega : i < processed.length)]
        exact h11 i hlt
      · -- boundary between the old last minute and the new one
        have hieq : i + 1 = st.block_labels.length := by omega
        have hlen0 : 0 < st.block_labels.length := by omega
        rcases hprev : st.prev with _ | p
        · rw [hprev] at h9
          rw [h9.2.1] at hlen0
          simp at hlen0
        · rw [hprev] at h9
          obtain ⟨hp1, hp2, hp3⟩ := h9
          have hgl : (st.block_labels ++ [name])[i + 1]? = some name := by
            rw [hieq]; exact List.getElem?_concat_length _ _
          have hgl2 : (st.block_labels ++ [name])[i]? = some st.block_name := by
            rw [List.getElem?_append_left (by omega : i < st.block_labels.length),
              show i = st.block_labels.length - 1 from by omega,
              ← List.getLast?_eq_getElem? st.block_labels]
            exact hp2
          have hgp : (processed ++ [m])[i + 1]? = some m := by
            rw [hieq, h6]; exact List.getElem?_concat_length _ _
          have hgp2 : (processed ++ [m])[i]? = some p := by
            rw [List.getElem?_append_left (by omega : i < processed.length)]
            rw [show i = processed.length - 1 from by omega]
            rw [← List.getLast?_eq_getElem? processed]
            exact hp1
          rw [hgl, hgl2, hgp, hgp2]
          constructor
          · intro hc
            exfalso
            apply hfresh
            rw [Option.some_inj.mp hc]
            exact hp3
          · intro hc
            exfalso
            apply hcond
            rw [hprev, Option.some_inj.mp hc]
  · -- same block continues
    push_neg at hcond
    have hprev : st.prev = some m := hcond.symm
    rw [hprev] at h9
    obtain ⟨hp1, hp2, hp3⟩ := h9
    have hstepB : buildStep st m =
        ⟨st.block_labels ++ [st.block_name],
         dictIncr st.block_durations st.block_name,
         st.block_order, st.block_index, some m, st.block_name⟩ := by
      simp only [buildStep, hprev]
      rw [if_neg (by simp)]
    rw [hstepB]
    refine ⟨h1, h2, h3, ?_, ?_, ?_, ?_, ?_, ?_, ?_, ?_⟩
    · show (dictIncr st.block_durations st.block_name).map Prod.fst =
        st.block_order
      rw [dictIncr_map_fst_mem st.block_durations st.block_name (by rw [h4]; exact hp3), h4]
    · show ((dictIncr st.block_durations st.block_name).map Prod.snd).sum =
        (processed ++ [m]).length
      rw [dictIncr_sum, h5]
      simp
    · show (st.block_labels ++ [st.block_name]).length = (processed ++ [m]).length
      simp only [List.length_append, List.length_singleton, h6]
    · exact h7.trans (List.sublist_append_left st.block_labels [st.block_name])
    · show ∀ nm ∈ st.block_labels ++ [st.block_name], nm ∈ st.block_order
      intro nm hnm
      simp only [List.mem_append, List.mem_singleton] at hnm
      rcases hnm with hnm | hnm
      · exact h8 nm hnm
      · rw [hnm]; exact hp3
    · exact ⟨List.getLast?_concat processed, List.getLast?_concat _, hp3⟩
    · exact dictIncr_pos st.block_durations st.block_name h10
    · show ∀ i, i + 1 < (st.block_labels ++ [st.block_name]).length →
        ((st.block_labels ++ [st.block_name])[i + 1]? =
            (st.block_labels ++ [st.block_name])[i]? ↔
          (processed ++ [m])[i + 1]? = (processed ++ [m])[i]?)
      intro i hi
      simp only [List.length_append, List.length_singleton] at hi
      by_cases hlt : i + 1 < st.block_labels.length
      · rw [List.getElem?_append_left hlt,
          List.getElem?_append_left (by omega : i < st.block_labels.length),
          List.getElem?_append_left (by omega : i + 1 < processed.length),
          List.getElem?_append_left (by omega : i < processed.length)]
        exact h11 i hlt
      · have hieq : i + 1 = st.block_labels.length := by omega
        have hlen0 : 0 < st.block_labels.length :=
          List.length_pos.mpr (getLast?_ne_nil _ _ hp2)
        have hgl : (st.block_labels ++ [st.block_name])[i + 1]? =
            some st.block_name := by
          rw [hieq]; exact List.getElem?_concat_length _ _
        have hgl2 : (st.block_labels ++ [st.block_name])[i]? =
            some st.block_name := by
          rw [List.getElem?_append_left (by omega : i < st.block_labels.length)]
          rw [show i = st.block_labels.length - 1 from by omega]
          rw [← List.getLast?_eq_getElem? st.block_labels]
          exact hp2
        have hgp : (processed ++ [m])[i + 1]? = some m := by
          rw [hieq, h6]; exact List.getElem?_concat_length _ _
        have hgp2 : (processed ++ [m])[i]? = some m := by
          rw [List.getElem?_append_left (by omega : i < processed.length)]
          rw [show i = processed.length - 1 from by omega]
          rw [← List.getLast?_eq_getElem? processed]
          exact hp1
        rw [hgl, hgl2, hgp, hgp2]
        simp

theorem buildFold_inv :
    ∀ (ms processed : List String) (st : BuildState), BuildInv processed st →
      BuildInv (processed ++ ms) (ms.foldl buildStep st) := by
  intro ms
  induction ms with
  | nil => intro processed st h; simpa using h
  | cons m rest ih =>
    intro processed st h
    have h2 := ih (processed ++ [m]) (buildStep st m) (buildStep_inv processed st m h)
    simpa using h2

theorem build_block_labels_inv (minutes : List String) :
    BuildInv minutes (minutes.foldl buildStep initState) := by
  have := buildFold_inv minutes [] initState buildInv_init
  simpa using this

/-- C7: on a 1440-minute timeline, `build_block_labels` returns a
per-minute block-name list of length 1440; a duration map summing to
exactly 1440; a block-order list that is a subsequence of the per-minute
list containing every block name (temporal first-occurrence order), with
pairwise-distinct `{label}_{ordinal}`-shaped names; and adjacent minutes
share a block name exactly when they share a label (so a new block starts
at minute 0 and at each label change). -/
theorem build_block_labels_spec (minutes : List String)
    (hlen : minutes.length = 1440) :
    (build_block_labels minutes).1.length = 1440 ∧
    (((build_block_labels minutes).2.1.map Prod.snd).sum = 1440) ∧
    (build_block_labels minutes).2.2.Nodup ∧
    (build_block_labels minutes).2.2.Sublist (build_block_labels minutes).1 ∧
    (∀ nm ∈ (build_block_labels minutes).1,
      nm ∈ (build_block_labels minutes).2.2) ∧
    (∀ nm ∈ (build_block_labels minutes).2.2,
      ∃ l k, nm = l ++ "_" ++ Nat.repr k) ∧
    (∀ i, i + 1 < 1440 →
      ((build_block_labels minutes).1[i + 1]? =
          (build_block_labels minutes).1[i]? ↔
        minutes[i + 1]? = minutes[i]?)) := by
  obtain ⟨h1, h2, h3, h4, h5, h6, h7, h8, h9, h10, h11⟩ :=
    build_block_labels_inv minutes
  refine ⟨?_, ?_, h3, h7, h8, ?_, ?_⟩
  · show (minutes.foldl buildStep initState).block_labels.length = 1440
    rw [h6, hlen]
  · show ((minutes.foldl buildStep initState).block_durations.map Prod.snd).sum
      = 1440
    rw [h5, hlen]
  · intro nm hnm
    obtain ⟨l, k, heq, _⟩ := h2 nm hnm
    exact ⟨l, k, heq⟩
  · intro i hi
    exact h11 i (by rw [h6, hlen]; exact hi)

/-- Witness for C7 at a concrete input. -/
theorem build_block_labels_spec_witness :
    (build_block_labels (List.replicate 1440 "w")).1.length = 1440 ∧
    (((build_block_labels (List.replicate 1440 "w")).2.1.map Prod.snd).sum
      = 1440) ∧
    (build_block_labels (List.replicate 1440 "w")).2.2.Nodup ∧
    (build_block_labels (List.replicate 1440 "w")).2.2.Sublist
      (build_block_labels (List.replicate 1440 "w")).1 ∧
    (∀ nm ∈ (build_block_labels (List.replicate 1440 "w")).1,
      nm ∈ (build_block_labels (List.replicate 1440 "w")).2.2) ∧
    (∀ nm ∈ (build_block_labels (List.replicate 1440 "w")).2.2,
      ∃ l k, nm = l ++ "_" ++ Nat.repr k) ∧
    (∀ i, i + 1 < 1440 →
      ((build_block_labels (List.replicate 1440 "w")).1[i + 1]? =
          (build_block_labels (List.replicate 1440 "w")).1[i]? ↔
        (List.replicate 1440 "w")[i + 1]? = (List.replicate 1440 "w")[i]?)) :=
  build_block_labels_spec (List.replicate 1440 "w") (List.length_replicate 1440 "w")

/-! ## Entropy scorer (`antientropy1.py`, `compute_entropy` and `main`) -/

/-- `compute_entropy` from `antientropy1.py`: `h -= p * ln p` over the
block-duration values, `p = count / 1440`. -/
noncomputable def compute_entropy (block_durations : List (String × ℕ)) : ℝ :=
  block_durations.foldl
    (fun h kv => h - ((kv.2 : ℝ) / 1440) * Real.log ((kv.2 : ℝ) / 1440)) 0

/-- `h_scaled = (H / ln 1440) * K` from `main` in `antientropy1.py`;
`K = len(block_durations)` is the association-list length (the block
names are pairwise distinct, so this matches the Python dict size). -/
noncomputable def h_scaled_of (block_durations : List (String × ℕ)) : ℝ :=
  compute_entropy block_durations / Real.log 1440 * block_durations.length

/-- The antientropy score from `main` in `antientropy1.py`:
`float("inf")` when `h_scaled == 0`, else `1000 / h_scaled`. -/
noncomputable def antientropy_of (block_durations : List (String × ℕ)) : EReal :=
  if h_scaled_of block_durations = 0 then ⊤
  else ((1000 / h_scaled_of block_durations : ℝ) : EReal)

theorem foldl_sub_sum (f : (String × ℕ) → ℝ) :
    ∀ (l : List (String × ℕ)) (a : ℝ),
      l.foldl (fun h kv => h - f kv) a = a - (l.map f).sum := by
  intro l
  induction l with
  | nil => intro a; simp
  | cons kv rest ih =>
    intro a
    simp only [List.foldl_cons, List.map_cons, List.sum_cons, ih]
    ring

theorem compute_entropy_eq (bd : List (String × ℕ)) :
    compute_entropy bd =
      -((bd.map fun kv => ((kv.2 : ℝ) / 1440) * Real.log ((kv.2 : ℝ) / 1440)).sum) := by
  unfold compute_entropy
  rw [foldl_sub_sum]
  ring

theorem list_sum_nonpos :
    ∀ (l : List ℝ), (∀ x ∈ l, x ≤ 0) → l.sum ≤ 0 := by
  intro l
  induction l with
  | nil => intro _; simp
  | cons x rest ih =>
    intro h
    simp only [List.sum_cons]
    have hx := h x (by simp)
    have hr := ih (fun y hy => h y (by simp [hy]))
    linarith

theorem compute_entropy_nonneg (bd : List (String × ℕ))
    (_hpos : ∀ kv ∈ bd, 0 < kv.2) (hle : ∀ kv ∈ bd, kv.2 ≤ 1440) :
    0 ≤ compute_entropy bd := by
  rw [compute_entropy_eq]
  rw [neg_nonneg]
  apply list_sum_nonpos
  intro x hx
  simp only [List.mem_map] at hx
  obtain ⟨kv, hkv, hxeq⟩ := hx
  subst hxeq
  have hp0 : (0 : ℝ) ≤ (kv.2 : ℝ) / 1440 := by positivity
  have hp1 : (kv.2 : ℝ) / 1440 ≤ 1 := by
    rw [div_le_one (by norm_num : (0 : ℝ) < 1440)]
    exact_mod_cast hle kv hkv
  exact mul_nonpos_iff.mpr (Or.inl ⟨hp0, Real.log_nonpos hp0 hp1⟩)

theorem h_scaled_nonneg (bd : List (String × ℕ))
    (hpos : ∀ kv ∈ bd, 0 < kv.2) (hle : ∀ kv ∈ bd, kv.2 ≤ 1440) :
    0 ≤ h_scaled_of bd := by
  unfold h_scaled_of
  have hlog : (0 : ℝ) < Real.log 1440 := Real.log_pos (by norm_num)
  have hH := compute_entropy_nonneg bd hpos hle
  positivity

/-- The duration-map values of `build_block_labels` on a 1440-minute
timeline are positive and bounded by 1440. -/
theorem build_durs_bounds (minutes : List String)
    (hlen : minutes.length = 1440) :
    (∀ kv ∈ (build_block_labels minutes).2.1, 0 < kv.2) ∧
    (∀ kv ∈ (build_block_labels minutes).2.1, kv.2 ≤ 1440) := by
  obtain ⟨h1, h2, h3, h4, h5, h6, h7, h8, h9, h10, h11⟩ :=
    build_block_labels_inv minutes
  refine ⟨h10, ?_⟩
  intro kv hkv
  have hmem : kv.2 ∈ (minutes.foldl buildStep initState).block_durations.map
      Prod.snd := List.mem_map_of_mem Prod.snd hkv
  have := List.single_le_sum
    (fun x hx => by
      simp only [List.mem_map] at hx
      obtain ⟨y, hy, hyx⟩ := hx
      subst hyx
      exact Nat.zero_le _) _ hmem
  rw [h5, hlen] at this
  exact this

theorem fold_replicate_same (lbl nm : String) :
    ∀ (n v : ℕ) (st : BuildState), st.prev = some lbl → st.block_name = nm →
      st.block_durations = [(nm, v)] →
      ((List.replicate n lbl).foldl buildStep st).block_durations
        = [(nm, v + n)] := by
  intro n
  induction n with
  | zero => intro v st _ _ hd; simpa using hd
  | succ k ih =>
    intro v st hprev hname hd
    rw [List.replicate_succ, List.foldl_cons]
    have hstep : buildStep st lbl =
        { st with
          block_labels := st.block_labels ++ [st.block_name]
          block_durations := dictIncr st.block_durations st.block_name
          prev := some lbl } := by
      simp only [buildStep, hprev]
      rw [if_neg (by simp)]
    have := ih (v + 1) (buildStep st lbl)
      (by rw [hstep]) (by rw [hstep]; exact hname)
      (by rw [hstep]; show dictIncr st.block_durations st.block_name = _
          rw [hd, hname]; simp [dictIncr])
    rw [this, show v + 1 + k = v + (k + 1) from by omega]

theorem build_block_labels_durs (minutes : List String) :
    (build_block_labels minutes).2.1
      = (minutes.foldl buildStep initState).block_durations := rfl

/-- On a constant 1440-minute timeline the duration map is one block of
1440 minutes. -/
theorem build_durs_replicate (lbl : String) :
    (build_block_labels (List.replicate 1440 lbl)).2.1
      = [(lbl ++ "_" ++ toString (0 : ℤ), 1440)] := by
  rw [build_block_labels_durs]
  have hrepl : List.replicate 1440 lbl = lbl :: List.replicate 1439 lbl := by
    rw [show (1440 : ℕ) = 1439 + 1 from by norm_num, List.replicate_succ]
  rw [hrepl, List.foldl_cons]
  have hstep : buildStep initState lbl =
      ⟨[lbl ++ "_" ++ toString (0 : ℤ)], [(lbl ++ "_" ++ toString (0 : ℤ), 1)],
       [lbl ++ "_" ++ toString (0 : ℤ)], 0, some lbl,
       lbl ++ "_" ++ toString (0 : ℤ)⟩ := by
    simp only [buildStep, initState]
    norm_num
    simp [dictIncr]
  rw [hstep]
  have := fold_replicate_same lbl (lbl ++ "_" ++ toString (0 : ℤ)) 1439 1
    ⟨[lbl ++ "_" ++ toString (0 : ℤ)], [(lbl ++ "_" ++ toString (0 : ℤ), 1)],
     [lbl ++ "_" ++ toString (0 : ℤ)], 0, some lbl,
     lbl ++ "_" ++ toString (0 : ℤ)⟩ rfl rfl rfl
  rw [this]

/-- C2: for a block-duration map obtained from a 1440-minute timeline the
score `H_norm * K` is non-negative; the antientropy result is `+∞` when
the score is zero and `1000 / score` when it is positive — the zero
divisor is special-cased, never a numeric error; and a day consisting of
one single 1440-minute block has `K = 1`, `H = 0` and antientropy `+∞`. -/
theorem antientropy_spec (minutes : List String)
    (hlen : minutes.length = 1440) :
    0 ≤ h_scaled_of (build_block_labels minutes).2.1 ∧
    (h_scaled_of (build_block_labels minutes).2.1 = 0 →
      antientropy_of (build_block_labels minutes).2.1 = ⊤) ∧
    (0 < h_scaled_of (build_block_labels minutes).2.1 →
      antientropy_of (build_block_labels minutes).2.1 =
        ((1000 / h_scaled_of (build_block_labels minutes).2.1 : ℝ) : EReal)) ∧
    (∀ lbl, minutes = List.replicate 1440 lbl →
      (build_block_labels minutes).2.1.length = 1 ∧
      compute_entropy (build_block_labels minutes).2.1 = 0 ∧
      antientropy_of (build_block_labels minutes).2.1 = ⊤) := by
  obtain ⟨hpos, hle⟩ := build_durs_bounds minutes hlen
  refine ⟨h_scaled_nonneg _ hpos hle, ?_, ?_, ?_⟩
  · intro h0
    unfold antientropy_of
    rw [if_pos h0]
  · intro hgt
    unfold antientropy_of
    rw [if_neg (by positivity)]
  · intro lbl hrepl
    subst hrepl
    rw [build_durs_replicate lbl]
    have hH : compute_entropy [(lbl ++ "_" ++ toString (0 : ℤ), 1440)] = 0 := by
      unfold compute_entropy
      simp only [List.foldl_cons, List.foldl_nil]
      rw [show ((1440 : ℕ) : ℝ) / 1440 = 1 by norm_num, Real.log_one]
      ring
    refine ⟨rfl, hH, ?_⟩
    unfold antientropy_of
    rw [if_pos ?_]
    unfold h_scaled_of
    rw [hH]
    simp

/-- Witness for C2 at a concrete input. -/
theorem antientropy_spec_witness :
    (build_block_labels (List.replicate 1440 "x")).2.1.length = 1 ∧
    compute_entropy (build_block_labels (List.replicate 1440 "x")).2.1 = 0 ∧
    antientropy_of (build_block_labels (List.replicate 1440 "x")).2.1 = ⊤ :=
  (antientropy_spec (List.replicate 1440 "x")
    (List.length_replicate 1440 "x")).2.2.2 "x" rfl

/-! ## Switch-penalty scorer (`focus.py`) -/

/-- `CATEGORIES` from `label_classifier.py`. -/
def CATEGORIES : List String := ["core", "self-care", "peripheral", "waste"]

/-- `SWITCH_WEIGHTS` from `focus.py`, as a partial lookup on ordered
pairs (a missing key is Python's `KeyError`). -/
def SWITCH_WEIGHTS : String × String → Option ℚ := fun p =>
  if p = ("core", "self-care") then some (6/10)
  else if p = ("core", "waste") then some 1
  else if p = ("core", "peripheral") then some (5/10)
  else if p = ("self-care", "core") then some (2/10)
  else if p = ("self-care", "waste") then some (7/10)
  else if p = ("self-care", "peripheral") then some (3/10)
  else if p = ("waste", "core") then some 0
  else if p = ("waste", "self-care") then some (4/10)
  else if p = ("waste", "peripheral") then some (6/10)
  else if p = ("peripheral", "core") then some (2/10)
  else if p = ("peripheral", "self-care") then some (4/10)
  else if p = ("peripheral", "waste") then some (8/10)
  else none

/-- One iteration of the `compute_switch_penalty` loop at minute `t`:
look up `categories[t-1]` and `categories[t]` (an out-of-range index is
Python's `IndexError`, hence `none`), and on a change accumulate the
matrix weight and bump the switch count. -/
def switchStep (categories : List String) (acc : Option (ℚ × ℕ)) (t : ℕ) :
    Option (ℚ × ℕ) :=
  match acc with
  | none => none
  | some (total, switches) =>
    match categories[t - 1]?, categories[t]? with
    | some prev, some curr =>
      if prev ≠ curr then
        match SWITCH_WEIGHTS (prev, curr) with
        | some w => some (total + w, switches + 1)
        | none => none
      else some (total, switches)
    | _, _ => none

/-- `compute_switch_penalty` from `focus.py`: `for t in range(1, 1440)`. -/
def compute_switch_penalty (categories : List String) : Option (ℚ × ℕ) :=
  (List.range' 1 1439).foldl (switchStep categories) (some (0, 0))

/-- The `{focus, penalty, switches}` record returned by
`compute_focus_from_categories`; `focus = ⊤` models `float("inf")`. -/
structure FocusResult where
  focus : WithTop ℚ
  penalty : ℚ
  switches : ℕ
deriving DecidableEq

/-- `compute_focus_from_categories` from `focus.py`. -/
def compute_focus_from_categories (categories : List String) :
    Option FocusResult :=
  match compute_switch_penalty categories with
  | none => none
  | some (penalty, switches) =>
    some ⟨if penalty = 0 then ⊤ else ((1000 / penalty : ℚ) : WithTop ℚ),
      penalty, switches⟩

/-- Claim-side switch count over an index list: the number of positions
`t` whose category differs from the one at `t - 1`. -/
def specSwitchesOn (categories : List String) (ts : List ℕ) : ℕ :=
  (ts.filter
    (fun t => decide (categories.getD (t - 1) "" ≠ categories.getD t ""))).length

/-- Claim-side penalty over an index list: the sum of the matrix weights
of the ordered pairs at the switching positions. -/
def specPenaltyOn (categories : List String) (ts : List ℕ) : ℚ :=
  (ts.filterMap (fun t =>
    if categories.getD (t - 1) "" ≠ categories.getD t ""
    then SWITCH_WEIGHTS (categories.getD (t - 1) "", categories.getD t "")
    else none)).sum

/-- Claim-side switch count over minutes `1..1439`. -/
def specSwitches (categories : List String) : ℕ :=
  specSwitchesOn categories (List.range' 1 1439)

/-- Claim-side penalty over minutes `1..1439`. -/
def specPenalty (categories : List String) : ℚ :=
  specPenaltyOn categories (List.range' 1 1439)

theorem switch_weights_total :
    ∀ a ∈ CATEGORIES, ∀ b ∈ CATEGORIES, a ≠ b →
      (SWITCH_WEIGHTS (a, b)).isSome = true ∧
        0 ≤ (SWITCH_WEIGHTS (a, b)).getD 0 := by
  intro a ha b hb hne
  fin_cases ha <;> fin_cases hb <;> simp_all [SWITCH_WEIGHTS] <;> norm_num

theorem getD_eq_some (l : List String) (i : ℕ) (h : i < l.length) :
    l[i]? = some (l.getD i "") := by
  rw [List.getD_eq_getElem?_getD, List.getElem?_eq_getElem h]
  rfl

theorem getD_mem (l : List String) (i : ℕ) (h : i < l.length) :
    l.getD i "" ∈ l := by
  rw [List.getD_eq_getElem?_getD, List.getElem?_eq_getElem h]
  exact List.getElem_mem h

theorem switchFold_eq (categories : List String)
    (hmem : ∀ x ∈ categories, x ∈ CATEGORIES) :
    ∀ (ts : List ℕ) (total : ℚ) (switches : ℕ),
      (∀ t ∈ ts, 1 ≤ t ∧ t < categories.length) →
      ts.foldl (switchStep categories) (some (total, switches)) =
        some (total + specPenaltyOn categories ts,
          switches + specSwitchesOn categories ts) := by
  intro ts
  induction ts with
  | nil =>
    intro total switches _
    simp [specPenaltyOn, specSwitchesOn]
  | cons t rest ih =>
    intro total switches hb
    have ht := hb t (by simp)
    have hprev : categories[t - 1]? = some (categories.getD (t - 1) "") :=
      getD_eq_some categories (t - 1) (by omega)
    have hcurr : categories[t]? = some (categories.getD t "") :=
      getD_eq_some categories t (by omega)
    have hrest : ∀ x ∈ rest, 1 ≤ x ∧ x < categories.length :=
      fun x hx => hb x (by simp [hx])
    rw [List.foldl_cons]
    by_cases hne : categories.getD (t - 1) "" ≠ categories.getD t ""
    · obtain ⟨hsome, _⟩ := switch_weights_total
        (categories.getD (t - 1) "") (hmem _ (getD_mem categories (t - 1) (by omega)))
        (categories.getD t "") (hmem _ (getD_mem categories t (by omega))) hne
      obtain ⟨w, hw⟩ := Option.isSome_iff_exists.mp hsome
      have hstep : switchStep categories (some (total, switches)) t =
          some (total + w, switches + 1) := by
        simp only [switchStep, hprev, hcurr]
        rw [if_pos hne, hw]
      rw [hstep, ih (total + w) (switches + 1) hrest]
      have hpen : specPenaltyOn categories (t :: rest) =
          w + specPenaltyOn categories rest := by
        unfold specPenaltyOn
        rw [List.filterMap_cons]
        rw [if_pos hne, hw]
        simp
      have hsw : specSwitchesOn categories (t :: rest) =
          1 + specSwitchesOn categories rest := by
        unfold specSwitchesOn
        rw [List.filter_cons]
        rw [if_pos (by simpa using hne)]
        simp [Nat.add_comm]
      rw [hpen, hsw, add_assoc, Nat.add_assoc]
    · have heq : categories.getD (t - 1) "" = categories.getD t "" := by
        by_contra hc
        exact hne hc
      have hstep : switchStep categories (some (total, switches)) t =
          some (total, switches) := by
        simp only [switchStep, hprev, hcurr]
        rw [if_neg (by simpa using heq)]
      rw [hstep, ih total switches hrest]
      have hpen : specPenaltyOn categories (t :: rest) =
          specPenaltyOn categories rest := by
        unfold specPenaltyOn
        rw [List.filterMap_cons]
        rw [if_neg (by simpa using heq)]
      have hsw : specSwitchesOn categories (t :: rest) =
          specSwitchesOn categories rest := by
        unfold specSwitchesOn
        rw [List.filter_cons]
        rw [if_neg (by simpa using heq)]
      rw [hpen, hsw]

theorem list_sum_nonneg_q :
    ∀ (l : List ℚ), (∀ x ∈ l, 0 ≤ x) → 0 ≤ l.sum := by
  intro l
  induction l with
  | nil => intro _; simp
  | cons x rest ih =>
    intro h
    simp only [List.sum_cons]
    have hx := h x (by simp)
    have hr := ih (fun y hy => h y (by simp [hy]))
    linarith

theorem specPenaltyOn_nonneg (categories : List String)
    (hmem : ∀ x ∈ categories, x ∈ CATEGORIES) (ts : List ℕ)
    (hb : ∀ t ∈ ts, 1 ≤ t ∧ t < categories.length) :
    0 ≤ specPenaltyOn categories ts := by
  apply list_sum_nonneg_q
  intro x hx
  simp only [List.mem_filterMap] at hx
  obtain ⟨t, ht, hft⟩ := hx
  have hbt := hb t ht
  by_cases hne : categories.getD (t - 1) "" ≠ categories.getD t ""
  · rw [if_pos hne] at hft
    obtain ⟨_, hnn⟩ := switch_weights_total
      (categories.getD (t - 1) "") (hmem _ (getD_mem categories (t - 1) (by omega)))
      (categories.getD t "") (hmem _ (getD_mem categories t (by omega))) hne
    rw [hft] at hnn
    simpa using hnn
  · rw [if_neg hne] at hft
    exact absurd hft (by simp)

/-- C3: on a full 1440-minute category timeline,
`compute_focus_from_categories` returns a record whose `switches` field
counts the positions `t ∈ 1..1439` whose category differs from `t-1`,
whose `penalty` field sums the asymmetric matrix weights of the ordered
switch pairs, and whose `focus` field is `1000 / penalty` when the
penalty is positive and `+∞` when it is zero. -/
theorem compute_focus_spec (categories : List String)
    (hlen : categories.length = 1440)
    (hmem : ∀ x ∈ categories, x ∈ CATEGORIES) :
    ∃ r, compute_focus_from_categories categories = some r ∧
      r.switches = specSwitches categories ∧
      r.penalty = specPenalty categories ∧
      0 ≤ r.penalty ∧
      (r.penalty = 0 → r.focus = ⊤) ∧
      (0 < r.penalty → r.focus = ((1000 / r.penalty : ℚ) : WithTop ℚ)) := by
  have hbounds : ∀ t ∈ List.range' 1 1439, 1 ≤ t ∧ t < categories.length := by
    intro t ht
    rw [List.mem_range'_1] at ht
    omega
  have hfold : compute_switch_penalty categories =
      some (specPenalty categories, specSwitches categories) := by
    unfold compute_switch_penalty
    have := switchFold_eq categories hmem (List.range' 1 1439) 0 0 hbounds
    simpa [specPenalty, specSwitches] using this
  refine ⟨⟨if specPenalty categories = 0 then ⊤
      else ((1000 / specPenalty categories : ℚ) : WithTop ℚ),
      specPenalty categories, specSwitches categories⟩, ?_, rfl, rfl, ?_, ?_, ?_⟩
  · unfold compute_focus_from_categories
    rw [hfold]
  · exact specPenaltyOn_nonneg categories hmem (List.range' 1 1439) hbounds
  · intro h0
    have h0x : specPenalty categories = 0 := h0
    show (if specPenalty categories = 0 then (⊤ : WithTop ℚ)
      else ((1000 / specPenalty categories : ℚ) : WithTop ℚ)) = ⊤
    rw [if_pos h0x]
  · intro hgt
    have hne : specPenalty categories ≠ 0 := ne_of_gt hgt
    show (if specPenalty categories = 0 then (⊤ : WithTop ℚ)
      else ((1000 / specPenalty categories : ℚ) : WithTop ℚ)) =
      ((1000 / specPenalty categories : ℚ) : WithTop ℚ)
    rw [if_neg hne]

/-- Witness for C3 at a concrete input. -/
theorem compute_focus_spec_witness :
    ∃ r, compute_focus_from_categories (List.replicate 1440 "core") = some r ∧
      r.switches = specSwitches (List.replicate 1440 "core") ∧
      r.penalty = specPenalty (List.replicate 1440 "core") ∧
      0 ≤ r.penalty ∧
      (r.penalty = 0 → r.focus = ⊤) ∧
      (0 < r.penalty → r.focus = ((1000 / r.penalty : ℚ) : WithTop ℚ)) :=
  compute_focus_spec (List.replicate 1440 "core")
    (List.length_replicate 1440 "core")
    (fun x hx => by rw [List.eq_of_mem_replicate hx]; simp [CATEGORIES])

/-- Reducing `compute_focus_from_categories` once the loop result is
known. -/
theorem compute_focus_eq (categories : List String) (p : ℚ) (s : ℕ)
    (h : compute_switch_penalty categories = some (p, s)) :
    compute_focus_from_categories categories =
      some ⟨if p = 0 then ⊤ else ((1000 / p : ℚ) : WithTop ℚ), p, s⟩ := by
  unfold compute_focus_from_categories
  rw [h]

theorem wc_getD_pos : ∀ t, 1 ≤ t → t < 1440 →
    ("waste" :: List.replicate 1439 "core").getD t "" = "core" := by
  intro t h1 h2
  obtain ⟨t2, rfl⟩ : ∃ t2, t = t2 + 1 := ⟨t - 1, by omega⟩
  rw [List.getD_cons_succ, List.getD_eq_getElem?_getD,
    List.getElem?_eq_getElem (by simp only [List.length_replicate]; omega)]
  rw [Option.getD_some, List.getElem_replicate]

theorem wc_getD_zero : ("waste" :: List.replicate 1439 "core").getD 0 "" =
    "waste" :=
  List.getD_cons_zero

theorem wc_getD_one : ("waste" :: List.replicate 1439 "core").getD 1 "" =
    "core" :=
  wc_getD_pos 1 (by norm_num) (by norm_num)

theorem wc_range_split : List.range' 1 1439 = 1 :: List.range' 2 1438 := by
  rw [show (1439 : ℕ) = 1438 + 1 from by norm_num]
  exact List.range'_succ 1 1438 1

theorem wc_switches : specSwitches ("waste" :: List.replicate 1439 "core") = 1 := by
  unfold specSwitches specSwitchesOn
  rw [wc_range_split, List.filter_cons]
  rw [if_pos (by rw [show (1 : ℕ) - 1 = 0 from rfl, wc_getD_zero, wc_getD_one]; simp)]
  rw [List.filter_eq_nil_iff.mpr ?_]
  · rfl
  · intro t ht
    rw [List.mem_range'_1] at ht
    rw [wc_getD_pos (t - 1) (by omega) (by omega),
      wc_getD_pos t (by omega) (by omega)]
    simp

theorem wc_penalty : specPenalty ("waste" :: List.replicate 1439 "core") = 0 := by
  unfold specPenalty specPenaltyOn
  rw [wc_range_split, List.filterMap_cons]
  rw [if_pos (by rw [show (1 : ℕ) - 1 = 0 from rfl, wc_getD_zero, wc_getD_one]; simp)]
  rw [show (1 : ℕ) - 1 = 0 from rfl, wc_getD_zero, wc_getD_one]
  rw [show SWITCH_WEIGHTS ("waste", "core") = some 0 by simp [SWITCH_WEIGHTS]]
  rw [List.filterMap_eq_nil_iff.mpr ?_]
  · simp
  · intro t ht
    rw [List.mem_range'_1] at ht
    rw [wc_getD_pos (t - 1) (by omega) (by omega),
      wc_getD_pos t (by omega) (by omega)]
    simp

theorem wc_mem : ∀ x ∈ ("waste" :: List.replicate 1439 "core"),
    x ∈ CATEGORIES := by
  intro x hx
  rcases List.mem_cons.mp hx with hx | hx
  · rw [hx]; simp [CATEGORIES]
  · rw [List.eq_of_mem_replicate hx]; simp [CATEGORIES]

theorem wc_fold : compute_switch_penalty ("waste" :: List.replicate 1439 "core")
    = some (0, 1) := by
  unfold compute_switch_penalty
  have hbounds : ∀ t ∈ List.range' 1 1439, 1 ≤ t ∧
      t < ("waste" :: List.replicate 1439 "core").length := by
    intro t ht
    rw [List.mem_range'_1] at ht
    simp only [List.length_cons, List.length_replicate]
    omega
  have hfold := switchFold_eq ("waste" :: List.replicate 1439 "core") wc_mem
    (List.range' 1 1439) 0 0 hbounds
  rw [show specPenaltyOn ("waste" :: List.replicate 1439 "core")
      (List.range' 1 1439) = 0 from wc_penalty,
    show specSwitchesOn ("waste" :: List.replicate 1439 "core")
      (List.range' 1 1439) = 1 from wc_switches] at hfold
  rw [hfold]
  norm_num

/-- C10: a 1440-minute category timeline with exactly one category change,
a waste-to-core transition, gets the switch weight `0.0`, hence penalty
`0`, `focus = +∞` and `switches = 1`: infinite focus does not imply zero
category changes. -/
theorem focus_infinite_with_switch :
    ("waste" :: List.replicate 1439 "core").length = 1440 ∧
    compute_focus_from_categories ("waste" :: List.replicate 1439 "core") =
      some ⟨⊤, 0, 1⟩ ∧ (1 : ℕ) ≠ 0 := by
  refine ⟨by rw [List.length_cons, List.length_replicate], ?_, by norm_num⟩
  rw [compute_focus_eq _ 0 1 wc_fold, if_pos rfl]

/-! ## Time codec (`parse_time_to_minute`, identical in `focus.py` and
`antientropy1.py`)

Python string primitives are modelled on character lists:
`str.strip()` drops whitespace at both ends, `str.split(":")` splits on
every colon, and `int()` strips whitespace and accepts an optional sign
followed by digits (Python's underscore digit grouping is not modelled —
no claim depends on it). -/

/-- `str.strip()`. -/
def pyStrip (cs : List Char) : List Char :=
  ((cs.dropWhile Char.isWhitespace).reverse.dropWhile Char.isWhitespace).reverse

/-- `str.split(sep)` for a one-character separator. -/
def pySplit (sep : Char) : List Char → List (List Char)
  | [] => [[]]
  | c :: rest =>
    if c = sep then [] :: pySplit sep rest
    else
      match pySplit sep rest with
      | h :: t => (c :: h) :: t
      | [] => [[c]]

/-- Unsigned decimal digits to a number (`none` models `ValueError`). -/
def digitsToNat (cs : List Char) : Option ℕ :=
  if cs = [] then none
  else if cs.all Char.isDigit then
    some (cs.foldl (fun acc c => acc * 10 + (c.toNat - '0'.toNat)) 0)
  else none

/-- Python `int(text)`. -/
def pyInt (cs : List Char) : Option ℤ :=
  match pyStrip cs with
  | '-' :: rest => (digitsToNat rest).map (fun n => -(n : ℤ))
  | '+' :: rest => (digitsToNat rest).map (fun n => (n : ℤ))
  | cs2 => (digitsToNat cs2).map (fun n => (n : ℤ))

/-- `parse_time_to_minute` from `focus.py` / `antientropy1.py`. -/
def parse_time_to_minute (value : String) : Option ℤ :=
  let parts := pySplit ':' (pyStrip value.data)
  if parts.length ≠ 2 then none
  else
    match pyInt (parts.getD 0 []), pyInt (parts.getD 1 []) with
    | some hour, some minute =>
      if hour = 24 ∧ minute = 0 then some 1440
      else if (0 ≤ hour ∧ hour < 24) ∧ (0 ≤ minute ∧ minute < 60) then
        some (hour * 60 + minute)
      else none
    | _, _ => none

theorem parse_time_eq (value : String) :
    parse_time_to_minute value =
      (if (pySplit ':' (pyStrip value.data)).length ≠ 2 then none
       else
         match pyInt ((pySplit ':' (pyStrip value.data)).getD 0 []),
             pyInt ((pySplit ':' (pyStrip value.data)).getD 1 []) with
         | some hour, some minute =>
           if hour = 24 ∧ minute = 0 then some 1440
           else if (0 ≤ hour ∧ hour < 24) ∧ (0 ≤ minute ∧ minute < 60) then
             some (hour * 60 + minute)
           else none
         | _, _ => none) := rfl

/-- C5: `parse_time_to_minute` fails unless the trimmed string splits on
`":"` into exactly two numeric parts; the literal pair `(24, 0)` maps to
1440; a pair with hour in `[0, 23]` and minute in `[0, 59]` maps to
`hour * 60 + minute`; any other combination fails; and concretely
`"24:00" ↦ 1440`, `"23:59" ↦ 1439`, `"24:01"` fails, `"12:5" ↦ 725`. -/
theorem parse_time_spec (value : String) :
    (((pySplit ':' (pyStrip value.data)).length ≠ 2 ∨
        pyInt ((pySplit ':' (pyStrip value.data)).getD 0 []) = none ∨
        pyInt ((pySplit ':' (pyStrip value.data)).getD 1 []) = none) →
      parse_time_to_minute value = none) ∧
    (∀ hour minute,
      (pySplit ':' (pyStrip value.data)).length = 2 →
      pyInt ((pySplit ':' (pyStrip value.data)).getD 0 []) = some hour →
      pyInt ((pySplit ':' (pyStrip value.data)).getD 1 []) = some minute →
      (hour = 24 ∧ minute = 0 → parse_time_to_minute value = some 1440) ∧
      (0 ≤ hour → hour < 24 → 0 ≤ minute → minute < 60 →
        parse_time_to_minute value = some (hour * 60 + minute)) ∧
      (¬(hour = 24 ∧ minute = 0) →
        ¬((0 ≤ hour ∧ hour < 24) ∧ (0 ≤ minute ∧ minute < 60)) →
        parse_time_to_minute value = none)) ∧
    parse_time_to_minute "24:00" = some 1440 ∧
    parse_time_to_minute "23:59" = some 1439 ∧
    parse_time_to_minute "24:01" = none ∧
    parse_time_to_minute "12:5" = some 725 := by
  refine ⟨?_, ?_, by decide, by decide, by decide, by decide⟩
  · intro h
    rw [parse_time_eq]
    by_cases hlen : (pySplit ':' (pyStrip value.data)).length ≠ 2
    · rw [if_pos hlen]
    · rw [if_neg hlen]
      rcases h with h | h | h
      · exact absurd h hlen
      · rw [h]
      · rw [h]
        rcases pyInt ((pySplit ':' (pyStrip value.data)).getD 0 []) with _ | v
        · rfl
        · rfl
  · intro hour minute hlen h0 h1
    have hmain : parse_time_to_minute value =
        (if hour = 24 ∧ minute = 0 then some 1440
         else if (0 ≤ hour ∧ hour < 24) ∧ (0 ≤ minute ∧ minute < 60) then
           some (hour * 60 + minute)
         else none) := by
      rw [parse_time_eq, if_neg (by simp [hlen]), h0, h1]
    refine ⟨?_, ?_, ?_⟩
    · intro h24
      rw [hmain, if_pos h24]
    · intro ha hb hc hd
      rw [hmain, if_neg (by omega), if_pos ⟨⟨ha, hb⟩, ⟨hc, hd⟩⟩]
    · intro hn24 hnr
      rw [hmain, if_neg hn24, if_neg hnr]

/-- Witness for C5 at a concrete input. -/
theorem parse_time_spec_witness :
    parse_time_to_minute "7:30" = some (7 * 60 + 30) :=
  (((parse_time_spec "7:30").2.1 7 30 (by decide) (by decide) (by decide)).2.1)
    (by norm_num) (by norm_num) (by norm_num) (by norm_num)

/-! ## Activity resolver oracle (`label_classifier.py`,
`GrokClassifier.classify_many`)

The oracle argument models the parsed JSON object of one batch call: given
the retry level and the batch that was sent, it may answer each label with
some string or omit it. -/

/-- `str(value).strip().lower()` applied to an oracle answer. -/
def normTok (s : String) : String := ⟨(pyStrip s.data).map Char.toLower⟩

/-- A single answer kept only when it normalizes into the category set. -/
def validTok : Option String → Option String
  | some v => if normTok v ∈ CATEGORIES then some (normTok v) else none
  | none => none

/-- Python `dict.update`: entries of `r` win over entries of `m`. -/
def dictUpd (m r : String → Option String) : String → Option String :=
  fun k => (r k).orElse (fun _ => m k)

/-- The `mapping` dict built by the per-item loop of `classify_many`:
an item of the batch maps to its normalized answer when that answer is a
valid category. -/
def cmMapping (oracle : ℕ → List String → String → Option String)
    (r : ℕ) (acts : List String) : String → Option String :=
  fun k => if k ∈ acts then validTok (oracle r acts k) else none

/-- The `missing` list built by the same loop: the batch items without a
valid answer, in batch order. -/
def cmMissing (oracle : ℕ → List String → String → Option String)
    (r : ℕ) (acts : List String) : List String :=
  acts.filter fun k => (validTok (oracle r acts k)).isNone

/-- `GrokClassifier.classify_many`: an empty batch returns `{}` without
contacting the oracle; otherwise the answered items are collected, the
missing ones are retried recursively (at most 2 retries), and whatever is
still missing afterwards is force-assigned `"peripheral"`. -/
def classify_many (oracle : ℕ → List String → String → Option String)
    (activities : List String) (retry_count : ℕ) : String → Option String :=
  if activities = [] then fun _ => none
  else
    let mapping :=
      if _h : cmMissing oracle retry_count activities ≠ [] ∧ retry_count < 2 then
        dictUpd (cmMapping oracle retry_count activities)
          (classify_many oracle (cmMissing oracle retry_count activities)
            (retry_count + 1))
      else cmMapping oracle retry_count activities
    fun k =>
      if k ∈ activities then some ((mapping k).getD "peripheral") else mapping k
  termination_by 2 - retry_count
  decreasing_by omega

/-- The successive batches sent to the oracle: the initial labels, then
at each retry exactly the still-missing labels. -/
def batchAt (oracle : ℕ → List String → String → Option String)
    (acts : List String) : ℕ → List String
  | 0 => acts
  | r + 1 => cmMissing oracle r (batchAt oracle acts r)

/-- The category the resolution protocol assigns to a label: the first
valid oracle answer along the (at most three) batches containing it, and
the default `"peripheral"` if none arrives. -/
def specResolve (oracle : ℕ → List String → String → Option String)
    (acts : List String) (k : String) : String :=
  ((validTok (oracle 0 (batchAt oracle acts 0) k)).orElse (fun _ =>
    (validTok (oracle 1 (batchAt oracle acts 1) k)).orElse (fun _ =>
      validTok (oracle 2 (batchAt oracle acts 2) k)))).getD "peripheral"

theorem cmMissing_subset (oracle : ℕ → List String → String → Option String)
    (r : ℕ) (acts : List String) (k : String)
    (h : k ∈ cmMissing oracle r acts) : k ∈ acts :=
  (List.mem_filter.mp h).1

theorem classify_many_notmem (oracle : ℕ → List String → String → Option String) :
    ∀ (n r : ℕ), 2 - r ≤ n → ∀ (batch : List String) (k : String),
      k ∉ batch → classify_many oracle batch r k = none := by
  intro n
  induction n with
  | zero =>
    intro r hr batch k hk
    rw [classify_many]
    by_cases hb : batch = []
    · simp [hb]
    · simp only [hb, if_false]
      rw [dif_neg (by omega)]
      simp only [hk, if_false]
      unfold cmMapping
      simp [hk]
  | succ n ih =>
    intro r hr batch k hk
    rw [classify_many]
    by_cases hb : batch = []
    · simp [hb]
    · simp only [hb, if_false]
      by_cases hd : cmMissing oracle r batch ≠ [] ∧ r < 2
      · rw [dif_pos hd]
        simp only [hk, if_false]
        unfold dictUpd
        rw [ih (r + 1) (by omega) (cmMissing oracle r batch) k
          (fun hm => hk (cmMissing_subset oracle r batch k hm))]
        unfold cmMapping
        simp [hk]
      · rw [dif_neg hd]
        simp only [hk, if_false]
        unfold cmMapping
        simp [hk]

theorem classify_many_level2
    (oracle : ℕ → List String → String → Option String)
    (batch : List String) (k : String) (hk : k ∈ batch) :
    classify_many oracle batch 2 k =
      some ((validTok (oracle 2 batch k)).getD "peripheral") := by
  rw [classify_many]
  have hb : batch ≠ [] := List.ne_nil_of_mem hk
  simp only [hb, if_false]
  rw [dif_neg (by omega)]
  simp only [hk, if_true]
  unfold cmMapping
  simp [hk]

theorem classify_many_step
    (oracle : ℕ → List String → String → Option String)
    (r : ℕ) (hr : r < 2) (batch : List String) (k : String) (hk : k ∈ batch)
    (next : String → Option String)
    (hnext : ∀ k2 ∈ cmMissing oracle r batch,
      classify_many oracle (cmMissing oracle r batch) (r + 1) k2 =
        some ((next k2).getD "peripheral")) :
    classify_many oracle batch r k =
      some (((validTok (oracle r batch k)).orElse
        (fun _ => next k)).getD "peripheral") := by
  rw [classify_many]
  have hb : batch ≠ [] := List.ne_nil_of_mem hk
  simp only [hb, if_false]
  by_cases hd : cmMissing oracle r batch ≠ [] ∧ r < 2
  · rw [dif_pos hd]
    simp only [hk, if_true]
    unfold dictUpd
    by_cases hkm : k ∈ cmMissing oracle r batch
    · have hvn : validTok (oracle r batch k) = none := by
        have := (List.mem_filter.mp hkm).2
        exact Option.isNone_iff_eq_none.mp (by simpa using this)
      rw [hnext k hkm, hvn]
      rfl
    · have hvs : ∃ v, validTok (oracle r batch k) = some v := by
        rcases hv : validTok (oracle r batch k) with _ | v
        · exfalso
          apply hkm
          unfold cmMissing
          rw [List.mem_filter]
          exact ⟨hk, by rw [hv]; rfl⟩
        · exact ⟨v, rfl⟩
      obtain ⟨v, hv⟩ := hvs
      rw [classify_many_notmem oracle 2 (r + 1) (by omega) _ k hkm]
      unfold cmMapping
      simp only [hk, if_true]
      rw [hv]
      rfl
  · rw [dif_neg hd]
    simp only [hk, if_true]
    have hmiss : cmMissing oracle r batch = [] := by
      by_contra hc
      exact hd ⟨hc, hr⟩
    have hvs : ∃ v, validTok (oracle r batch k) = some v := by
      rcases hv : validTok (oracle r batch k) with _ | v
      · exfalso
        have : k ∈ cmMissing oracle r batch := by
          unfold cmMissing
          rw [List.mem_filter]
          exact ⟨hk, by rw [hv]; rfl⟩
        rw [hmiss] at this
        simp at this
      · exact ⟨v, rfl⟩
    obtain ⟨v, hv⟩ := hvs
    unfold cmMapping
    simp only [hk, if_true]
    rw [hv]
    rfl

theorem classify_many_level1
    (oracle : ℕ → List String → String → Option String)
    (batch : List String) (k : String) (hk : k ∈ batch) :
    classify_many oracle batch 1 k =
      some (((validTok (oracle 1 batch k)).orElse (fun _ =>
        validTok (oracle 2 (cmMissing oracle 1 batch) k))).getD "peripheral") :=
  classify_many_step oracle 1 (by omega) batch k hk
    (fun k2 => validTok (oracle 2 (cmMissing oracle 1 batch) k2))
    (fun k2 hk2 => classify_many_level2 oracle (cmMissing oracle 1 batch) k2 hk2)

theorem classify_many_level0
    (oracle : ℕ → List String → String → Option String)
    (batch : List String) (k : String) (hk : k ∈ batch) :
    classify_many oracle batch 0 k =
      some (((validTok (oracle 0 batch k)).orElse (fun _ =>
        (validTok (oracle 1 (cmMissing oracle 0 batch) k)).orElse (fun _ =>
          validTok (oracle 2 (cmMissing oracle 1 (cmMissing oracle 0 batch))
            k)))).getD "peripheral") :=
  classify_many_step oracle 0 (by omega) batch k hk
    (fun k2 => (validTok (oracle 1 (cmMissing oracle 0 batch) k2)).orElse
      (fun _ => validTok (oracle 2 (cmMissing oracle 1 (cmMissing oracle 0 batch)) k2)))
    (fun k2 hk2 => classify_many_level1 oracle (cmMissing oracle 0 batch) k2 hk2)

/-- C4: `classify_many` returns a mapping whose domain is exactly the
requested labels; a label gets the first valid category the oracle gives
it along the initial batch and the at most 2 retry batches of
still-missing labels, and `"peripheral"` when none arrives (so every
returned value is a valid category or the default); the empty request
yields the empty mapping whatever the oracle would answer. -/
theorem classify_many_spec
    (oracle : ℕ → List String → String → Option String)
    (activities : List String) (lbl : String) :
    ((classify_many oracle activities 0 lbl).isSome = true ↔
      lbl ∈ activities) ∧
    (lbl ∈ activities →
      classify_many oracle activities 0 lbl =
        some (specResolve oracle activities lbl)) ∧
    (∀ v, classify_many oracle activities 0 lbl = some v →
      validTok (oracle 0 (batchAt oracle activities 0) lbl) = some v ∨
      validTok (oracle 1 (batchAt oracle activities 1) lbl) = some v ∨
      validTok (oracle 2 (batchAt oracle activities 2) lbl) = some v ∨
      v = "peripheral") ∧
    classify_many oracle [] 0 lbl = none := by
  have hb0 : batchAt oracle activities 0 = activities := rfl
  have hb1 : batchAt oracle activities 1 = cmMissing oracle 0 activities := rfl
  have hb2 : batchAt oracle activities 2 =
      cmMissing oracle 1 (cmMissing oracle 0 activities) := rfl
  have hmain : lbl ∈ activities →
      classify_many oracle activities 0 lbl =
        some (specResolve oracle activities lbl) := by
    intro hmem
    rw [classify_many_level0 oracle activities lbl hmem]
    unfold specResolve
    rw [hb0, hb1, hb2]
  refine ⟨?_, hmain, ?_, ?_⟩
  · constructor
    · intro hsome
      by_contra hmem
      rw [classify_many_notmem oracle 2 0 (by omega) activities lbl hmem] at hsome
      simp at hsome
    · intro hmem
      rw [hmain hmem]
      rfl
  · intro v hv
    by_cases hmem : lbl ∈ activities
    · rw [hmain hmem] at hv
      have hveq : v = specResolve oracle activities lbl :=
        (Option.some_inj.mp hv).symm
      unfold specResolve at hveq
      rcases h0 : validTok (oracle 0 (batchAt oracle activities 0) lbl) with _ | v0
      · rcases h1 : validTok (oracle 1 (batchAt oracle activities 1) lbl) with _ | v1
        · rcases h2 : validTok (oracle 2 (batchAt oracle activities 2) lbl) with _ | v2
          · rw [h0, h1, h2] at hveq
            exact Or.inr (Or.inr (Or.inr hveq))
          · rw [h0, h1, h2] at hveq
            have hveq2 : v = v2 := hveq
            exact Or.inr (Or.inr (Or.inl (congrArg some hveq2.symm)))
        · rw [h0, h1] at hveq
          have hveq2 : v = v1 := hveq
          exact Or.inr (Or.inl (congrArg some hveq2.symm))
      · rw [h0] at hveq
        have hveq2 : v = v0 := hveq
        exact Or.inl (congrArg some hveq2.symm)
    · rw [classify_many_notmem oracle 2 0 (by omega) activities lbl hmem] at hv
      exact absurd hv (by simp)
  · rw [classify_many]
    simp

/-- A concrete oracle for the C4 witness: answers `"alpha"` with
`" CORE "` on the initial call and omits everything else always. -/
def woracle : ℕ → List String → String → Option String := fun r _ k =>
  if r = 0 ∧ k = "alpha" then some " CORE " else none

/-- Witness for C4 at a concrete input: the answered label gets its
normalized category, the twice-omitted label gets the default. -/
theorem classify_many_spec_witness :
    classify_many woracle ["alpha", "beta"] 0 "alpha" = some "core" ∧
    classify_many woracle ["alpha", "beta"] 0 "beta" = some "peripheral" := by
  constructor
  · have h := (classify_many_spec woracle ["alpha", "beta"] "alpha").2.1
      (by simp)
    rw [h]
    decide
  · have h := (classify_many_spec woracle ["alpha", "beta"] "beta").2.1
      (by simp)
    rw [h]
    decide

/-! ## Activity resolver (`focus.py`, `build_resolved_activity_map`)

The builtin activity map is a function `String → Option String`; the
cache is an insertion-ordered association list.  Python's
`sorted(set(...))` is modelled by `dedup` + insertion sort, and the
classifier parameter mirrors `classifier=None` vs a supplied oracle.
The write-back into the caller's cache (a side effect) is not modelled;
no claim depends on it. -/

/-- `dict.update` semantics over an association list: later entries win. -/
def updFrom (base : String → Option String) (l : List (String × String)) :
    String → Option String :=
  l.foldl (fun f kv => fun k => if k = kv.1 then some kv.2 else f k) base

/-- The category-valid cache entries
(`{key: value for ... if value in CATEGORIES}`). -/
def catValid (cache : List (String × String)) : List (String × String) :=
  cache.filter fun kv => decide (kv.2 ∈ CATEGORIES)

/-- `resolved = dict(activity_map); resolved.update(valid cache)`. -/
def resolvedOf (activity_map : String → Option String)
    (cache : List (String × String)) : String → Option String :=
  updFrom activity_map (catValid cache)

/-- `sorted({activity.strip().lower() for ... if ... not in resolved})`. -/
def unknownOf (rows : List Row) (activity_map : String → Option String)
    (cache : List (String × String)) : List String :=
  List.insertionSort (· ≤ ·)
    (((rows.map (fun r => normTok r.2.2)).filter
      (fun k => (resolvedOf activity_map cache k).isNone)).dedup)

/-- `f"Unknown activity label(s): {preview}{suffix}"`. -/
def unknownMsg (unknown : List String) : String :=
  "Unknown activity label(s): " ++ ", ".intercalate (unknown.take 10) ++
    (if unknown.length > 10 then "..." else "")

/-- `build_resolved_activity_map` from `focus.py`. -/
def build_resolved_activity_map (rows : List Row)
    (activity_map : String → Option String) (cache : List (String × String))
    (classifier : Option (ℕ → List String → String → Option String)) :
    Except String (String → Option String) :=
  if unknownOf rows activity_map cache ≠ [] then
    match classifier with
    | none => .error (unknownMsg (unknownOf rows activity_map cache))
    | some oracle =>
      .ok (dictUpd (resolvedOf activity_map cache)
        (classify_many oracle (unknownOf rows activity_map cache) 0))
  else .ok (resolvedOf activity_map cache)

theorem updFrom_cons (base : String → Option String) (kv : String × String)
    (rest : List (String × String)) (k : String) :
    updFrom base (kv :: rest) k =
      updFrom (fun k2 => if k2 = kv.1 then some kv.2 else base k2) rest k := rfl

theorem updFrom_notmem :
    ∀ (l : List (String × String)) (base : String → Option String) (k : String),
      (∀ kv ∈ l, kv.1 ≠ k) → updFrom base l k = base k := by
  intro l
  induction l with
  | nil => intro base k _; rfl
  | cons kv rest ih =>
    intro base k h
    rw [updFrom_cons, ih _ k (fun kv2 hkv2 => h kv2 (by simp [hkv2]))]
    rw [if_neg (fun hk => h kv (by simp) hk.symm)]

theorem updFrom_none_iff :
    ∀ (l : List (String × String)) (base : String → Option String) (k : String),
      (updFrom base l k = none ↔ base k = none ∧ ∀ kv ∈ l, kv.1 ≠ k) := by
  intro l
  induction l with
  | nil =>
    intro base k
    simp [updFrom]
  | cons kv rest ih =>
    intro base k
    rw [updFrom_cons, ih]
    constructor
    · intro ⟨h1, h2⟩
      by_cases hk : k = kv.1
      · rw [if_pos hk] at h1
        exact absurd h1 (by simp)
      · rw [if_neg hk] at h1
        refine ⟨h1, ?_⟩
        intro kv2 hkv2
        rcases List.mem_cons.mp hkv2 with h | h
        · rw [h]; exact fun hc => hk hc.symm
        · exact h2 kv2 h
    · intro ⟨h1, h2⟩
      have hk : k ≠ kv.1 := fun hc => h2 kv (by simp) hc.symm
      rw [if_neg hk]
      exact ⟨h1, fun kv2 hkv2 => h2 kv2 (by simp [hkv2])⟩

theorem updFrom_override :
    ∀ (l : List (String × String)) (k : String), (∃ kv ∈ l, kv.1 = k) →
      ∀ (base base2 : String → Option String),
        updFrom base l k = updFrom base2 l k := by
  intro l
  induction l with
  | nil => intro k h; exact absurd h (by simp)
  | cons kv rest ih =>
    intro k h base base2
    rw [updFrom_cons, updFrom_cons]
    by_cases hrest : ∃ kv2 ∈ rest, kv2.1 = k
    · exact ih k hrest _ _
    · obtain ⟨kv0, hkv0, hkey⟩ := h
      have hkv : kv0 = kv := by
        rcases List.mem_cons.mp hkv0 with h2 | h2
        · exact h2
        · exact absurd ⟨kv0, h2, hkey⟩ hrest
      have hkk : k = kv.1 := by rw [← hkv, hkey]
      rw [updFrom_notmem rest _ k, updFrom_notmem rest _ k]
      · rw [if_pos hkk, if_pos hkk]
      · intro kv2 hkv2
        exact fun hc => hrest ⟨kv2, hkv2, hc⟩
      · intro kv2 hkv2
        exact fun hc => hrest ⟨kv2, hkv2, hc⟩

theorem unknownOf_mem (rows : List Row) (activity_map : String → Option String)
    (cache : List (String × String)) (k : String) :
    k ∈ unknownOf rows activity_map cache ↔
      (∃ r ∈ rows, normTok r.2.2 = k) ∧
        resolvedOf activity_map cache k = none := by
  unfold unknownOf
  rw [(List.perm_insertionSort (· ≤ ·) _).mem_iff, List.mem_dedup,
    List.mem_filter]
  constructor
  · intro ⟨h1, h2⟩
    obtain ⟨r, hr, hrk⟩ := List.mem_map.mp h1
    exact ⟨⟨r, hr, hrk⟩, Option.isNone_iff_eq_none.mp (by simpa using h2)⟩
  · intro ⟨⟨r, hr, hrk⟩, h2⟩
    exact ⟨List.mem_map.mpr ⟨r, hr, hrk⟩, by simp [h2]⟩

/-- C8: with no classifier supplied, `build_resolved_activity_map` fails
exactly when some row's trimmed-and-lowercased label resolves neither
through the builtin map nor through a category-valid cache entry; the
error message is built from the first at most 10 labels of the sorted
unknown list; on success it returns the merged map, in which cache
entries beat builtin entries. -/
theorem build_resolved_spec (rows : List Row)
    (activity_map : String → Option String)
    (cache : List (String × String)) :
    ((∃ e, build_resolved_activity_map rows activity_map cache none =
        .error e) ↔
      ∃ r ∈ rows, activity_map (normTok r.2.2) = none ∧
        ∀ kv ∈ cache, kv.2 ∈ CATEGORIES → kv.1 ≠ normTok r.2.2) ∧
    (unknownOf rows activity_map cache ≠ [] →
      build_resolved_activity_map rows activity_map cache none =
        .error (unknownMsg (unknownOf rows activity_map cache)) ∧
      List.Sorted (· ≤ ·) (unknownOf rows activity_map cache) ∧
      ((unknownOf rows activity_map cache).take 10).length ≤ 10) ∧
    (unknownOf rows activity_map cache = [] →
      build_resolved_activity_map rows activity_map cache none =
        .ok (resolvedOf activity_map cache) ∧
      (∀ k, (∃ kv ∈ catValid cache, kv.1 = k) →
        ∀ amap2, resolvedOf activity_map cache k = resolvedOf amap2 cache k) ∧
      (∀ k, (∀ kv ∈ catValid cache, kv.1 ≠ k) →
        resolvedOf activity_map cache k = activity_map k)) := by
  have hresnone : ∀ k, resolvedOf activity_map cache k = none ↔
      activity_map k = none ∧
        ∀ kv ∈ cache, kv.2 ∈ CATEGORIES → kv.1 ≠ k := by
    intro k
    unfold resolvedOf
    rw [updFrom_none_iff]
    constructor
    · intro ⟨h1, h2⟩
      refine ⟨h1, ?_⟩
      intro kv hkv hcat
      exact h2 kv (List.mem_filter.mpr ⟨hkv, by simpa using hcat⟩)
    · intro ⟨h1, h2⟩
      refine ⟨h1, ?_⟩
      intro kv hkv
      obtain ⟨hmem, hcat⟩ := List.mem_filter.mp hkv
      exact h2 kv hmem (by simpa using hcat)
  refine ⟨?_, ?_, ?_⟩
  · constructor
    · intro ⟨e, he⟩
      unfold build_resolved_activity_map at he
      by_cases hu : unknownOf rows activity_map cache ≠ []
      · obtain ⟨k, hk⟩ := List.exists_mem_of_ne_nil _ hu
        obtain ⟨⟨r, hr, hrk⟩, hres⟩ :=
          (unknownOf_mem rows activity_map cache k).mp hk
        rw [← hrk] at hres
        obtain ⟨h1, h2⟩ := (hresnone (normTok r.2.2)).mp hres
        exact ⟨r, hr, h1, h2⟩
      · rw [if_neg hu] at he
        exact absurd he (by simp)
    · intro ⟨r, hr, h1, h2⟩
      have hk : normTok r.2.2 ∈ unknownOf rows activity_map cache :=
        (unknownOf_mem rows activity_map cache (normTok r.2.2)).mpr
          ⟨⟨r, hr, rfl⟩, (hresnone (normTok r.2.2)).mpr ⟨h1, h2⟩⟩
      have hu : unknownOf rows activity_map cache ≠ [] :=
        List.ne_nil_of_mem hk
      refine ⟨unknownMsg (unknownOf rows activity_map cache), ?_⟩
      unfold build_resolved_activity_map
      rw [if_pos hu]
  · intro hu
    refine ⟨?_, List.sorted_insertionSort _ _, by simp [List.length_take]⟩
    unfold build_resolved_activity_map
    rw [if_pos hu]
  · intro hu
    refine ⟨?_, ?_, ?_⟩
    · unfold build_resolved_activity_map
      rw [if_neg (by simp [hu])]
    · intro k hk amap2
      exact updFrom_override (catValid cache) k hk activity_map amap2
    · intro k hk
      exact updFrom_notmem (catValid cache) activity_map k hk

/-- Witness for C8 at a concrete input: an unresolvable label makes the
resolver fail. -/
theorem build_resolved_spec_witness :
    ∃ e, build_resolved_activity_map [(0, 10, "zzz")] (fun _ => none) [] none =
      .error e :=
  (build_resolved_spec [(0, 10, "zzz")] (fun _ => none) []).1.mpr
    ⟨(0, 10, "zzz"), by simp, rfl, by simp⟩
